import Mathlib

/-!
# Verification of the triagebot reviewer-assignment engine

A shallow embedding of `src/handlers/assign.rs` (reviewer/assignee selection
for the triage bot): group/team expansion, candidate filtering, diff-based
ownership weighting, and the assignment coordinator, together with theorems
checking the natural-language specification against the code.

Rust strings are modelled as lists of characters (`Str`); Rust `HashSet`s are
modelled as duplicate-free lists built by insert-if-new; the random selector is
modelled by an explicit seed choosing an index.  Functions that can panic in
Rust return `Option`, with `none` marking the panic.
-/

/-- Results of fallible Rust code are `Except` values; equality of results is
decidable so that concrete runs can be checked by `decide`. -/
instance {ε α : Type} [DecidableEq ε] [DecidableEq α] : DecidableEq (Except ε α)
  | .ok a, .ok b => decidable_of_iff (a = b) ⟨fun h => by rw [h], fun h => by injection h⟩
  | .ok _, .error _ => isFalse (fun h => by injection h)
  | .error _, .ok _ => isFalse (fun h => by injection h)
  | .error e, .error f => decidable_of_iff (e = f) ⟨fun h => by rw [h], fun h => by injection h⟩

/-- Rust `String`/`&str`, modelled as a list of characters so that all
operations compute in the kernel. -/
abbrev Str := List Char

/-- Embed a Lean string literal into the model. -/
def str (s : String) : Str := s.data

/-- Rust `str::trim_start_matches`, fuelled helper: repeatedly removes the
pattern from the front while it is a prefix.  Fuel `s.length` always
suffices because each removal deletes at least one character. -/
def trimStartAux (pat : Str) : Nat → Str → Str
  | 0, s => s
  | fuel + 1, s =>
    if pat ≠ [] ∧ pat.isPrefixOf s then trimStartAux pat fuel (s.drop pat.length) else s

/-- Rust `str::trim_start_matches(pat)`: removes every repetition of `pat`
at the start of the string. -/
def trimStartMatches (pat s : Str) : Str := trimStartAux pat s.length s

/-- Rust `name.strip_prefix('@').unwrap_or(name)`: removes a single leading
`@` if present. -/
def stripOneAt (name : Str) : Str :=
  if (str "@").isPrefixOf name then name.drop 1 else name

/-- `to_lowercase` (character-wise; adequate for ASCII logins, which is how
the code compares usernames). -/
def strLower (s : Str) : Str := s.map Char.toLower

/-- Split a string at every occurrence of the character `c`. -/
def splitOnChar (c : Char) : Str → List Str
  | [] => [[]]
  | a :: rest =>
    match splitOnChar c rest with
    | [] => [[a]]
    | h :: t => if a = c then [] :: h :: t else (a :: h) :: t

/-- Rust `str::lines`: split on `'\n'`, drop a final empty piece (produced by a
trailing newline or an empty string), and strip one trailing `'\r'` per line. -/
def rustLines (s : Str) : List Str :=
  let parts := splitOnChar '\n' s
  let parts := if parts.getLast? = some [] then parts.dropLast else parts
  parts.map (fun l => if l.getLast? = some '\r' then l.dropLast else l)

/-! ## Data model

`Team`, `Issue` and `AssignConfig` carry exactly the fields
`src/handlers/assign.rs` reads. -/

/-- A rust-team-data team; only the members' GitHub logins are read
(`team.members.iter().map(|member| member.github.clone())`). -/
structure Team where
  members : List Str
  deriving DecidableEq, Repr

/-- `rust_team_data::v1::Teams`: a name-indexed map of teams. -/
structure Teams where
  teams : List (Str × Team)
  deriving DecidableEq, Repr

/-- The parts of a GitHub issue/PR the assignment code reads: the author login
(`issue.user.login`), the assignee logins (`issue.assignees`) and the owning
organization (`issue.repository().organization`). -/
structure Issue where
  author : Str
  assignees : List Str
  org : Str
  deriving DecidableEq, Repr

/-- The `[assign]` configuration table: the `owners` map (glob pattern to owner
list), the ad-hoc groups, and the legacy `users_on_vacation` list. -/
structure AssignConfig where
  owners : List (Str × List Str)
  adhoc_groups : List (Str × List Str)
  users_on_vacation : List Str
  deriving DecidableEq, Repr

/-- Modelled from the spec: `AssignConfig::is_on_vacation` lives in config
code that is not part of the excerpt; the spec describes it as membership of
the username in the legacy `users_on_vacation` list (§6). -/
def is_on_vacation (config : AssignConfig) (user : Str) : Bool :=
  decide (user ∈ config.users_on_vacation)

/-- `is_self_assign`: case-insensitive comparison of assignee and author. -/
def is_self_assign (assignee pr_author : Str) : Bool :=
  decide (strLower assignee = strLower pr_author)

/-- The `FindReviewerError` enum.  The first eight variants are exactly the
ones declared in `src/handlers/assign.rs`; `reviewerAtMaxCapacity` is the
capacity-exclusion variant that the spec (§7) and the repository's own test
suite (`tests_candidates.rs`) use, modelled from the spec because the
capacity-checking code itself is not part of the excerpt. -/
inductive FindReviewerError where
  | teamNotFound (team : Str)
  | noReviewer (initial : List Str)
  | allReviewersFiltered (initial filtered : List Str)
  | noReviewerHasCapacity
  | reviewerHasNoCapacity (username : Str)
  | reviewerOnVacation (username : Str)
  | reviewerIsPrAuthor (username : Str)
  | reviewerAlreadyAssigned (username : Str)
  | reviewerAtMaxCapacity (username : Str)
  deriving DecidableEq, Repr

/-- `strip_organization_prefix`: trim every leading `@`, then every leading
`"{organization}/"`. -/
def stripOrganization (issue : Issue) (name : Str) : Str :=
  trimStartMatches (issue.org ++ str "/") (trimStartMatches (str "@") name)

/-- Map lookup in `teams.teams`. -/
def lookupTeam (teams : Teams) (name : Str) : Option Team :=
  teams.teams.lookup name

/-- Map lookup in `config.adhoc_groups`. -/
def lookupGroup (config : AssignConfig) (name : Str) : Option (List Str) :=
  config.adhoc_groups.lookup name

/-- `get_team_name`: strip the organization then every `t-`/`T-` prefix and
return the stripped name if it names a team. -/
def get_team_name (teams : Teams) (issue : Issue) (name : Str) : Option Str :=
  let team_name := stripOrganization issue name
  let team_name := trimStartMatches (str "T-") (trimStartMatches (str "t-") team_name)
  match lookupTeam teams team_name with
  | some _ => some team_name
  | none => none

/-! ## Group and team expansion (`expand_teams_and_groups`)

The Rust loop pops names from a work stack; groups push their members back
onto the stack (at most once each, guarded by `seen_names`), teams dump their
members into the result set, and anything else is a username.  The `HashSet`s
`expanded` and `seen_names` are modelled as duplicate-free lists with
insert-if-new.  The loop is modelled with explicit fuel; an explicit measure
bounds the number of iterations, which is the termination argument. -/

/-- `HashSet::insert`: add the element only if it is not present. -/
def setInsert (l : List Str) (x : Str) : List Str :=
  if x ∈ l then l else l ++ [x]

/-- Insert every element of `xs` (Rust `HashSet::extend`). -/
def setInsertMany (l : List Str) (xs : List Str) : List Str :=
  xs.foldl setInsert l

/-- The mutable state of the expansion loop: the work stack (head = next name
to pop, i.e. the end of the Rust `Vec`), the `seen_names` set, the `expanded`
result set, and the `expansion_happened` flag. -/
structure ExpandSt where
  stack : List Str
  seen : List Str
  expanded : List Str
  happened : Bool
  deriving DecidableEq, Repr

/-- One classification step of the expansion loop, applied to a popped name
(the state already has the name removed from the stack): try ad-hoc groups
first, then teams, then reject unknown slash-qualified names, else treat the
name as a username. -/
def expandClassify (teams : Teams) (issue : Issue) (config : AssignConfig)
    (name : Str) (st : ExpandSt) : Except FindReviewerError ExpandSt :=
  let maybe_team := get_team_name teams issue name
  let maybe_group := stripOrganization issue name
  let maybe_user := stripOneAt name
  match lookupGroup config maybe_group with
  | some group_members =>
    if maybe_group ∈ st.seen then
      .ok { st with happened := true }
    else
      .ok { st with happened := true, seen := st.seen ++ [maybe_group],
                    stack := group_members.reverse ++ st.stack }
  | none =>
    match maybe_team.bind (lookupTeam teams) with
    | some team =>
      .ok { st with happened := true, expanded := setInsertMany st.expanded team.members }
    | none =>
      if '/' ∈ maybe_user then
        .error (.teamNotFound maybe_user)
      else
        .ok { st with expanded := setInsert st.expanded maybe_user }

/-- The group names of the configuration. -/
def groupKeys (config : AssignConfig) : List Str :=
  config.adhoc_groups.map Prod.fst

/-- Total number of member entries over all ad-hoc groups. -/
def totalGroupMembers (config : AssignConfig) : Nat :=
  (config.adhoc_groups.map (fun g => g.2.length)).sum

/-- Number of configured groups not yet in the `seen` set. -/
def unseenGroups (config : AssignConfig) (seen : List Str) : Nat :=
  ((groupKeys config).filter (fun g => decide (g ∉ seen))).length

/-- Strictly decreasing measure of the expansion loop: popping any name
shrinks the stack, and the only step that grows the stack (expanding a fresh
group) permanently shrinks the set of unseen groups. -/
def expandMeasure (config : AssignConfig) (st : ExpandSt) : Nat :=
  st.stack.length + unseenGroups config st.seen * (1 + totalGroupMembers config)

/-- The expansion loop with explicit fuel; `none` means the fuel ran out. -/
def expandLoopFuel (teams : Teams) (issue : Issue) (config : AssignConfig) :
    Nat → ExpandSt → Option (Except FindReviewerError (List Str × Bool))
  | 0, _ => none
  | fuel + 1, st =>
    match st.stack with
    | [] => some (.ok (st.expanded, st.happened))
    | name :: rest =>
      match expandClassify teams issue config name { st with stack := rest } with
      | .error e => some (.error e)
      | .ok st' => expandLoopFuel teams issue config fuel st'

/-- `expand_teams_and_groups`: run the loop on the input names (the Rust
`Vec` is popped from the end, so the list stack is the reversed input), with
fuel one more than the measure of the initial state — enough, as proved in
`expandLoopFuel_isSome`. -/
def expand_teams_and_groups (teams : Teams) (issue : Issue) (config : AssignConfig)
    (names : List Str) : Option (Except FindReviewerError (List Str × Bool)) :=
  let st : ExpandSt := { stack := names.reverse, seen := [], expanded := [], happened := false }
  expandLoopFuel teams issue config (expandMeasure config st + 1) st

/-! ## Candidate filtering (`candidate_reviewers_from_names`) -/

/-- The exclusion test applied to one expanded candidate, in the order the
code checks the reasons: PR author first, then vacation, then already
assigned; `none` means the candidate is valid.  All username comparisons are
case-insensitive. -/
def excludeReason (config : AssignConfig) (issue : Issue) (candidate : Str) :
    Option FindReviewerError :=
  let name_lower := strLower candidate
  let is_pr_author := decide (name_lower = strLower issue.author)
  let is_vacation := is_on_vacation config candidate
  let is_already_assigned := issue.assignees.any (fun a => decide (name_lower = strLower a))
  if is_pr_author then some (.reviewerIsPrAuthor candidate)
  else if is_vacation then some (.reviewerOnVacation candidate)
  else if is_already_assigned then some (.reviewerAlreadyAssigned candidate)
  else none

/-- One entry of the `candidates` vector: the exclusion reason for an excluded
candidate, or the candidate itself. -/
def classifyCandidate (config : AssignConfig) (issue : Issue) (candidate : Str) :
    Except FindReviewerError Str :=
  match excludeReason config issue candidate with
  | some e => .error e
  | none => .ok candidate

/-- The `valid_candidates` set: the successful entries of the `candidates`
vector, in order. -/
def validOf (candidates : List (Except FindReviewerError Str)) : List Str :=
  candidates.filterMap (fun r => match r with | .ok c => some c | .error _ => none)

/-- `candidate_reviewers_from_names`: expand the names, record an exclusion
reason (or success) per candidate, and return the valid candidates; when every
candidate is excluded, a single-literal-user request reports that user's own
reason (the `candidates.pop().unwrap().expect_err(..)` line) while any other
request reports the generic `NoReviewer`.  `none` models a Rust panic (fuel
exhaustion of the expansion loop, or `pop`/`expect_err` failing). -/
def candidate_reviewers_from_names (teams : Teams) (config : AssignConfig)
    (issue : Issue) (names : List Str) :
    Option (Except FindReviewerError (List Str)) :=
  match expand_teams_and_groups teams issue config names with
  | none => none
  | some (.error e) => some (.error e)
  | some (.ok (expanded, expansion_happened)) =>
    let candidates := expanded.map (classifyCandidate config issue)
    let valid_candidates := validOf candidates
    if valid_candidates.isEmpty then
      if names.length = 1 ∧ expansion_happened = false then
        match candidates.getLast? with
        | some (.error e) => some (.error e)
        | _ => none
      else
        some (.error (.noReviewer names))
    else
      some (.ok valid_candidates)

/-- The random choice made by `IteratorRandom::choose`: `None` exactly on an
empty list, otherwise an element selected by the seed (uniform over seeds). -/
def chooseRand (seed : Nat) (l : List Str) : Option Str :=
  l.get? (seed % l.length)

/-- `find_reviewer_from_names`: filter the candidates, short-circuit on the
sentinel `"ghost"`, otherwise pick a random candidate.  `none` models a panic
(the `.expect(..)` on an empty random choice, or a panic bubbled up from
`candidate_reviewers_from_names`). -/
def find_reviewer_from_names (seed : Nat) (teams : Teams) (config : AssignConfig)
    (issue : Issue) (names : List Str) :
    Option (Except FindReviewerError Str) :=
  match candidate_reviewers_from_names teams config issue names with
  | none => none
  | some (.error e) => some (.error e)
  | some (.ok candidates) =>
    if str "ghost" ∈ candidates then
      some (.ok (str "ghost"))
    else
      match chooseRand seed candidates with
      | some c => some (.ok c)
      | none => none

/-! ## Capacity checking, modelled from the spec

The capacity/workqueue check is absent from the excerpt: the `_db` parameter
of `find_reviewer_from_names` is unused there, while the error variants, the
repository's own tests (`tests_candidates.rs`, `ReviewerAtMaxCapacity`) and
the spec (§4.3 step 2d) describe the check.  It is therefore modelled here
from the spec's words. -/

/-- Modelled from the spec: `ReviewPrefs` — per-user optional maximum
concurrent capacity (absent = unlimited); the rotation mode is the legacy
vacation list already modelled by `is_on_vacation`. -/
structure ReviewPrefs where
  capacity : Option Nat
  deriving DecidableEq, Repr

/-- Modelled from the spec (§4.3 step 2d): current workqueue count for the
user ≥ capacity (capacity absent = never triggers). -/
def at_max_capacity (prefs : Str → Option Nat) (workqueue : Str → Nat)
    (user : Str) : Bool :=
  match prefs user with
  | some cap => decide (workqueue user ≥ cap)
  | none => false

/-- Modelled from the spec: the per-candidate exclusion test extended with the
capacity reason (§4.3 step 2d), evaluated after the exclusions that are in the
excerpt. -/
def excludeReasonCap (prefs : Str → Option Nat) (workqueue : Str → Nat)
    (config : AssignConfig) (issue : Issue) (candidate : Str) :
    Option FindReviewerError :=
  match excludeReason config issue candidate with
  | some e => some e
  | none =>
    if at_max_capacity prefs workqueue candidate then
      some (.reviewerAtMaxCapacity candidate)
    else none

/-- Modelled from the spec: one `candidates` entry with the capacity check. -/
def classifyCandidateCap (prefs : Str → Option Nat) (workqueue : Str → Nat)
    (config : AssignConfig) (issue : Issue) (candidate : Str) :
    Except FindReviewerError Str :=
  match excludeReasonCap prefs workqueue config issue candidate with
  | some e => .error e
  | none => .ok candidate

/-- Modelled from the spec: `candidate_reviewers_from_names` with the
capacity check of §4.3 step 2d in the per-candidate exclusion test. -/
def candidate_reviewers_with_capacity (prefs : Str → Option Nat)
    (workqueue : Str → Nat) (teams : Teams) (config : AssignConfig)
    (issue : Issue) (names : List Str) :
    Option (Except FindReviewerError (List Str)) :=
  match expand_teams_and_groups teams issue config names with
  | none => none
  | some (.error e) => some (.error e)
  | some (.ok (expanded, expansion_happened)) =>
    let candidates := expanded.map (classifyCandidateCap prefs workqueue config issue)
    let valid_candidates := validOf candidates
    if valid_candidates.isEmpty then
      if names.length = 1 ∧ expansion_happened = false then
        match candidates.getLast? with
        | some (.error e) => some (.error e)
        | _ => none
      else
        some (.error (.noReviewer names))
    else
      some (.ok valid_candidates)

/-! ## Diff-based owner matching (`find_reviewers_from_diff`)

The glob engine (`ignore::gitignore`) is an external crate; it is abstracted
as `globBuild : Str → Option (Str → Bool)`, returning `none` exactly when the
pattern is malformed (the `with_context(..)?`/`build()?` failures) and
otherwise the compiled path test `matched_path_or_any_parents(..).is_ignore()`. -/

/-- A changed file in the PR: path and unified diff text. -/
structure FileDiff where
  path : Str
  diff : Str
  deriving DecidableEq, Repr

/-- `owner_pattern.split('/').count()`: the depth of an owner pattern. -/
def patDepth (p : Str) : Nat := (splitOnChar '/' p).length

/-- The changed-line test of the counting loop: lines starting with `+` or
`-`, excluding the `+++`/`---` file headers. -/
def lineCounted (line : Str) : Bool :=
  (!(str "+++").isPrefixOf line && (str "+").isPrefixOf line) ||
  (!(str "---").isPrefixOf line && (str "-").isPrefixOf line)

/-- The loop building the `longest` map of one file iteration: every owner
pattern is compiled (failing on the first malformed one) and the matching ones
are recorded with their depth. -/
def buildLongest (globBuild : Str → Option (Str → Bool)) (path : Str) :
    List Str → List (Str × Nat) → Except Str (List (Str × Nat))
  | [], acc => .ok acc
  | p :: keys, acc =>
    match globBuild p with
    | none => .error (str "owner file pattern is not valid: " ++ p)
    | some m =>
      buildLongest globBuild path keys (if m path then acc ++ [(p, patDepth p)] else acc)

/-- `longest_owner_patterns`: the matching patterns of maximum depth for one
file (empty when nothing matches). -/
def longestOwnerPatterns (globBuild : Str → Option (Str → Bool)) (keys : List Str)
    (path : Str) : Except Str (List Str) :=
  match buildLongest globBuild path keys [] with
  | .error e => .error e
  | .ok longest =>
    let max_count := ((longest.map Prod.snd).max?).getD 0
    .ok ((longest.filter (fun e => e.2 = max_count)).map Prod.fst)

/-- `*counts.entry(k).or_default() += 1` on the association-list model of the
`counts` map. -/
def bump : List (Str × Nat) → Str → List (Str × Nat)
  | [], k => [(k, 1)]
  | (k', v) :: rest, k =>
    if k' = k then (k', v + 1) :: rest else (k', v) :: bump rest k

/-- One iteration of the outer loop of `find_reviewers_from_diff`: weight 1
per winning pattern for the touched file, plus 1 per counted diff line. -/
def processFile (globBuild : Str → Option (Str → Bool)) (keys : List Str)
    (counts : List (Str × Nat)) (fd : FileDiff) : Except Str (List (Str × Nat)) :=
  match longestOwnerPatterns globBuild keys fd.path with
  | .error e => .error e
  | .ok lps =>
    let counts := lps.foldl bump counts
    let counts := (rustLines fd.diff).foldl
      (fun c line => if lineCounted line then lps.foldl bump c else c) counts
    .ok counts

/-- `config.owners[p]`: the owner list of a pattern. -/
def ownersOf (config : AssignConfig) (p : Str) : List Str :=
  (config.owners.lookup p).getD []

/-- Byte-order comparison of strings (Rust `str` `Ord`; UTF-8 byte order
coincides with code-point order). -/
def lexLe : Str → Str → Bool
  | [], _ => true
  | _ :: _, [] => false
  | a :: as, b :: bs =>
    if a < b then true
    else if b < a then false
    else lexLe as bs

/-- `Vec::sort` on strings. -/
def sortStr (l : List Str) : List Str :=
  l.insertionSort (fun a b => lexLe a b)

/-- `Vec::dedup`: remove consecutive duplicates. -/
def dedupAdj : List Str → List Str
  | [] => []
  | [a] => [a]
  | a :: b :: rest =>
    if a = b then dedupAdj (b :: rest) else a :: dedupAdj (b :: rest)

/-- The outer loop over the diff accumulating the `counts` map. -/
def diffLoop (globBuild : Str → Option (Str → Bool)) (keys : List Str) :
    List FileDiff → List (Str × Nat) → Except Str (List (Str × Nat))
  | [], counts => .ok counts
  | fd :: rest, counts =>
    match processFile globBuild keys counts fd with
    | .error e => .error e
    | .ok counts' => diffLoop globBuild keys rest counts'

/-- `find_reviewers_from_diff`: accumulate weights per owner pattern over the
diff, then return the sorted, deduplicated owners of the patterns with the
maximum total weight. -/
def find_reviewers_from_diff (globBuild : Str → Option (Str → Bool))
    (config : AssignConfig) (diff : List FileDiff) : Except Str (List Str) :=
  match diffLoop globBuild (config.owners.map Prod.fst) diff [] with
  | .error e => .error e
  | .ok counts =>
    let max_count := ((counts.map Prod.snd).max?).getD 0
    let max_paths := (counts.filter (fun e => e.2 = max_count)).map Prod.fst
    let potential := max_paths.flatMap (fun p => ownersOf config p)
    .ok (dedupAdj (sortStr potential))

/-! ### The specification's description of the diff matcher

These definitions follow the spec's words (§4.2) directly — a per-pattern
weight formula instead of the imperative accumulation — and are proved
equivalent to the code translation above. -/

/-- The path test of a pattern (a malformed pattern matches nothing). -/
def matchesPat (globBuild : Str → Option (Str → Bool)) (p path : Str) : Bool :=
  match globBuild p with
  | some m => m path
  | none => false

/-- Spec §4.2: the matching patterns of maximum depth for one file. -/
def longestSpec (globBuild : Str → Option (Str → Bool)) (keys : List Str)
    (path : Str) : List Str :=
  let matched := keys.filter (fun p => matchesPat globBuild p path)
  let d := ((matched.map patDepth).max?).getD 0
  matched.filter (fun p => patDepth p = d)

/-- Number of changed lines of one file (`+`/`-` lines without the headers). -/
def changedLines (fd : FileDiff) : Nat :=
  ((rustLines fd.diff).filter lineCounted).length

/-- Spec §4.2: total weight of one owner pattern over the diff — 1 for each
touched file for which the pattern is a deepest match, plus that file's
changed-line count. -/
def patternWeight (globBuild : Str → Option (Str → Bool)) (keys : List Str)
    (diff : List FileDiff) (p : Str) : Nat :=
  (diff.map (fun fd =>
    if p ∈ longestSpec globBuild keys fd.path then 1 + changedLines fd else 0)).sum

/-- Spec §4.2: the sorted, deduplicated union of the owner lists of the
pattern(s) with the global maximum total weight (patterns that never matched
are never selected). -/
def diffCandidatesSpec (globBuild : Str → Option (Str → Bool))
    (config : AssignConfig) (diff : List FileDiff) : List Str :=
  let keys := config.owners.map Prod.fst
  let w := patternWeight globBuild keys diff
  let maxW := ((keys.map w).max?).getD 0
  let winners := keys.filter (fun p => 0 < w p ∧ w p = maxW)
  dedupAdj (sortStr (winners.flatMap (fun p => ownersOf config p)))

/-! ## The assignment coordinator (`determine_assignee`)

`determine_assignee` is async and posts comments; it is modelled as a pure
function returning the `(assignee, from_comment)` pair together with the list
of errors whose rendering was posted as a comment (only the `r?`-directive
tier posts comments).  The `r?` directive found in the PR body by the external
command parser is passed in as `bodyName`; each of the three
`find_reviewer_from_names` calls draws its own random seed.  `none` models a
panic. -/

/-- The outcome of `determine_assignee`: chosen assignee (if any), whether it
came from an `r?` directive, and the errors posted as comments. -/
structure DAResult where
  assignee : Option Str
  from_comment : Bool
  comments : List FindReviewerError
  deriving DecidableEq, Repr

/-- Tier 3 of `determine_assignee`: the configured literal `fallback` group,
if present. -/
def determineFallback (seed : Nat) (teams : Teams) (config : AssignConfig)
    (issue : Issue) (comments : List FindReviewerError) : Option DAResult :=
  match lookupGroup config (str "fallback") with
  | some fallback =>
    match find_reviewer_from_names seed teams config issue fallback with
    | none => none
    | some (.ok assignee) => some ⟨some assignee, false, comments⟩
    | some (.error _) => some ⟨none, false, comments⟩
  | none => some ⟨none, false, comments⟩

/-- Tier 2 of `determine_assignee`: the diff-based owner heuristic; any
failure (malformed pattern, no candidates, exhausted candidates) falls through
silently to the fallback tier. -/
def determineFromDiff (globBuild : Str → Option (Str → Bool)) (seed2 seed3 : Nat)
    (teams : Teams) (config : AssignConfig) (issue : Issue) (diff : List FileDiff)
    (comments : List FindReviewerError) : Option DAResult :=
  match find_reviewers_from_diff globBuild config diff with
  | .ok candidates =>
    if candidates.isEmpty then
      determineFallback seed3 teams config issue comments
    else
      match find_reviewer_from_names seed2 teams config issue candidates with
      | none => none
      | some (.ok assignee) => some ⟨some assignee, false, comments⟩
      | some (.error _) => determineFallback seed3 teams config issue comments
  | .error _ => determineFallback seed3 teams config issue comments

/-- `determine_assignee`: tiered decision for a new PR — explicit `r?`
directive (self-assignment accepted without filtering), then the diff
heuristic, then the fallback group. -/
def determine_assignee (globBuild : Str → Option (Str → Bool))
    (seed1 seed2 seed3 : Nat) (teams : Teams) (config : AssignConfig)
    (issue : Issue) (bodyName : Option Str) (diff : List FileDiff) :
    Option DAResult :=
  match bodyName with
  | some name =>
    if is_self_assign name issue.author then
      some ⟨some name, true, []⟩
    else
      match find_reviewer_from_names seed1 teams config issue [name] with
      | none => none
      | some (.ok assignee) => some ⟨some assignee, true, []⟩
      | some (.error e) =>
        determineFromDiff globBuild seed2 seed3 teams config issue diff [e]
  | none => determineFromDiff globBuild seed2 seed3 teams config issue diff []

/-! ## Comment-issued commands on a PR (`handle_command`, PR branch)

The PR branch of `handle_command` is modelled as a pure function whose result
names the exit path taken (each constructor corresponds to one `return` of the
Rust code, tagging the side effect of that path). -/

/-- The parsed assignment command (external parser). -/
inductive AssignCommand where
  | claim
  | assignUser (username : Str)
  | releaseAssignment
  | requestReview (name : Str)
  deriving DecidableEq, Repr

/-- Exit paths of the PR branch of `handle_command`. -/
inductive HandleOutcome where
  /-- The comment came from the bot itself; ignored. -/
  | botIgnored
  /-- Closed PR: the "Assignment is not allowed on a closed PR." comment. -/
  | notOpen
  /-- `IssuesAction::Opened` event: left to the new-PR handler. -/
  | openedEventIgnored
  /-- `release-assignment` on a PR is ignored. -/
  | releaseIgnored
  /-- `find_reviewer_from_names` failed: its error is posted as a comment and
  nothing is assigned. -/
  | resolutionFailed (e : FindReviewerError)
  /-- The resolved reviewer is on vacation and the requester is someone else:
  the vacation warning is posted and nothing is assigned. -/
  | vacationWarned (username : Str)
  /-- The resolved reviewer is the PR author: silently not assigned. -/
  | authorSkipped
  /-- The reviewer is assigned (`set_assignee`). -/
  | assigned (username : Str)
  /-- A Rust panic. -/
  | panicked
  deriving DecidableEq, Repr

/-- The target user of an assigning command (`Claim` targets the comment
author); `ReleaseAssignment` has no target and is ignored on PRs. -/
def commandTarget (eventUser : Str) : AssignCommand → Option Str
  | .claim => some eventUser
  | .assignUser username => some username
  | .requestReview name => some name
  | .releaseAssignment => none

/-- The PR branch of `handle_command`: resolve the target of the command
through `find_reviewer_from_names`, then apply the vacation self-assignment
allowance and the author guard before assigning. -/
def handle_command_pr (seed : Nat) (teams : Teams) (config : AssignConfig)
    (issue : Issue) (botName eventUser : Str) (isOpen isOpenedEvent : Bool)
    (cmd : AssignCommand) : HandleOutcome :=
  if eventUser = botName then .botIgnored
  else if !isOpen then .notOpen
  else if isOpenedEvent then .openedEventIgnored
  else
    match commandTarget eventUser cmd with
    | none => .releaseIgnored
    | some target =>
      match find_reviewer_from_names seed teams config issue [target] with
      | none => .panicked
      | some (.error e) => .resolutionFailed e
      | some (.ok assignee) =>
        if is_on_vacation config assignee && !is_self_assign assignee eventUser then
          .vacationWarned assignee
        else if strLower issue.author == strLower assignee then
          .authorSkipped
        else
          .assigned assignee

/-! ## Lemmas: termination of the expansion loop -/

theorem length_filter_notMem_le (l s₁ s₂ : List Str) (hsub : ∀ a, a ∈ s₁ → a ∈ s₂) :
    (l.filter (fun g => decide (g ∉ s₂))).length ≤
      (l.filter (fun g => decide (g ∉ s₁))).length :=
  (List.monotone_filter_right l (fun a ha => by
    simp only [decide_eq_true_eq] at ha ⊢
    exact fun h => ha (hsub a h))).length_le

theorem length_filter_notMem_lt (l s : List Str) (x : Str) (hx : x ∈ l) (hxs : x ∉ s) :
    (l.filter (fun g => decide (g ∉ s ++ [x]))).length <
      (l.filter (fun g => decide (g ∉ s))).length := by
  induction l with
  | nil => cases hx
  | cons a tl ih =>
    by_cases hax : a = x
    · subst hax
      have h1 : decide (a ∉ s ++ [a]) = false := by simp
      have h2 : decide (a ∉ s) = true := by simpa using hxs
      rw [List.filter_cons, List.filter_cons, h1, h2]
      simp only [if_false, if_true]
      exact Nat.lt_succ_of_le
        (length_filter_notMem_le tl s (s ++ [a]) (fun c hc => List.mem_append_left _ hc))
    · have hxtl : x ∈ tl := by
        rcases List.mem_cons.mp hx with h | h
        · exact absurd h.symm hax
        · exact h
      have hsame : decide (a ∉ s ++ [x]) = decide (a ∉ s) := by
        simp only [decide_eq_decide, List.mem_append, List.mem_singleton]
        constructor
        · intro h hs; exact h (Or.inl hs)
        · intro h hs; rcases hs with hs | hs
          · exact h hs
          · exact hax hs
      rw [List.filter_cons, List.filter_cons, hsame]
      by_cases has : decide (a ∉ s) = true
      · rw [has]
        simp only [if_true, List.length_cons]
        exact Nat.succ_lt_succ (ih hxtl)
      · rw [Bool.not_eq_true] at has
        rw [has]
        simp only [Bool.false_eq_true, if_false]
        exact ih hxtl

theorem lookup_mem {β : Type} {l : List (Str × β)} {k : Str} {v : β}
    (h : l.lookup k = some v) : (k, v) ∈ l := by
  induction l with
  | nil => cases h
  | cons p tl ih =>
    obtain ⟨a, b⟩ := p
    by_cases hk : k == a
    · simp only [List.lookup, hk] at h
      injection h with h
      subst h
      have hka : k = a := eq_of_beq hk
      subst hka
      exact List.mem_cons_self _ _
    · rw [Bool.not_eq_true] at hk
      simp only [List.lookup, hk] at h
      exact List.mem_cons_of_mem _ (ih h)

theorem lookupGroup_mem_keys {config : AssignConfig} {g : Str} {members : List Str}
    (h : lookupGroup config g = some members) : g ∈ groupKeys config := by
  have := lookup_mem h
  exact List.mem_map.mpr ⟨(g, members), this, rfl⟩

theorem length_le_sum_of_mem {l : List (Str × List Str)} {g : Str} {members : List Str}
    (hm : (g, members) ∈ l) : members.length ≤ (l.map (fun p => p.2.length)).sum := by
  induction l with
  | nil => cases hm
  | cons p tl ih =>
    rcases List.mem_cons.mp hm with hp | hp
    · rw [← hp]
      simp only [List.map_cons, List.sum_cons]
      exact Nat.le_add_right _ _
    · simp only [List.map_cons, List.sum_cons]
      exact (ih hp).trans (Nat.le_add_left _ _)

theorem lookupGroup_length_le {config : AssignConfig} {g : Str} {members : List Str}
    (h : lookupGroup config g = some members) :
    members.length ≤ totalGroupMembers config :=
  length_le_sum_of_mem (lookup_mem h)

theorem unseenGroups_pos {config : AssignConfig} {seen : List Str} {g : Str}
    (hg : g ∈ groupKeys config) (hs : g ∉ seen) : 0 < unseenGroups config seen := by
  unfold unseenGroups
  have : g ∈ (groupKeys config).filter (fun g => decide (g ∉ seen)) :=
    List.mem_filter.mpr ⟨hg, by simpa using hs⟩
  exact List.length_pos.mpr (List.ne_nil_of_mem this)

theorem expandClassify_measure {teams : Teams} {issue : Issue} {config : AssignConfig}
    {name : Str} {st st' : ExpandSt}
    (h : expandClassify teams issue config name st = .ok st') :
    expandMeasure config st' < expandMeasure config st + 1 := by
  simp only [expandClassify] at h
  cases hg : lookupGroup config (stripOrganization issue name) with
  | some members =>
    rw [hg] at h
    simp only at h
    by_cases hseen : stripOrganization issue name ∈ st.seen
    · rw [if_pos hseen] at h
      injection h with h
      subst h
      simp [expandMeasure]
    · rw [if_neg hseen] at h
      injection h with h
      subst h
      have hkey := lookupGroup_mem_keys hg
      have hlen := lookupGroup_length_le hg
      have hdec := length_filter_notMem_lt (groupKeys config) st.seen
        (stripOrganization issue name) hkey hseen
      simp only [expandMeasure, unseenGroups, List.length_append, List.length_reverse]
      set T := totalGroupMembers config with hT
      set u' := ((groupKeys config).filter
        (fun g => decide (g ∉ st.seen ++ [stripOrganization issue name]))).length with hu'
      set u := ((groupKeys config).filter (fun g => decide (g ∉ st.seen))).length with hu
      have h1 : u' + 1 ≤ u := hdec
      have h2 : (u' + 1) * (1 + T) ≤ u * (1 + T) := Nat.mul_le_mul_right _ h1
      have h3 : (u' + 1) * (1 + T) = u' * (1 + T) + (1 + T) := by ring
      omega
  | none =>
    rw [hg] at h
    simp only at h
    cases ht : (get_team_name teams issue name).bind (lookupTeam teams) with
    | some team =>
      rw [ht] at h
      simp only at h
      injection h with h
      subst h
      simp [expandMeasure]
    | none =>
      rw [ht] at h
      simp only at h
      by_cases hslash : '/' ∈ stripOneAt name
      · rw [if_pos hslash] at h
        cases h
      · rw [if_neg hslash] at h
        injection h with h
        subst h
        simp [expandMeasure]

theorem expandLoopFuel_isSome (teams : Teams) (issue : Issue) (config : AssignConfig) :
    ∀ (fuel : Nat) (st : ExpandSt), expandMeasure config st < fuel →
      (expandLoopFuel teams issue config fuel st).isSome := by
  intro fuel
  induction fuel with
  | zero => intro st h; exact absurd h (Nat.not_lt_zero _)
  | succ n ih =>
    intro st h
    rw [expandLoopFuel]
    cases hst : st.stack with
    | nil => simp
    | cons name rest =>
      simp only
      cases hc : expandClassify teams issue config name { st with stack := rest } with
      | error e => simp
      | ok st' =>
        simp only
        apply ih
        have hd := expandClassify_measure hc
        have hμ : expandMeasure config { st with stack := rest } + 1 =
            expandMeasure config st := by
          simp [expandMeasure, hst]
          omega
        omega

theorem expand_teams_and_groups_isSome (teams : Teams) (issue : Issue)
    (config : AssignConfig) (names : List Str) :
    (expand_teams_and_groups teams issue config names).isSome := by
  unfold expand_teams_and_groups
  exact expandLoopFuel_isSome teams issue config _ _ (Nat.lt_succ_self _)

/-! ## Lemmas: shape of the expansion result -/

theorem expandClassify_happened {teams : Teams} {issue : Issue} {config : AssignConfig}
    {name : Str} {st st' : ExpandSt}
    (h : expandClassify teams issue config name st = .ok st')
    (hh : st.happened = true) : st'.happened = true := by
  simp only [expandClassify] at h
  cases hg : lookupGroup config (stripOrganization issue name) with
  | some members =>
    rw [hg] at h
    simp only at h
    by_cases hseen : stripOrganization issue name ∈ st.seen
    · rw [if_pos hseen] at h; injection h with h; subst h; rfl
    · rw [if_neg hseen] at h; injection h with h; subst h; rfl
  | none =>
    rw [hg] at h
    simp only at h
    cases ht : (get_team_name teams issue name).bind (lookupTeam teams) with
    | some team => rw [ht] at h; simp only at h; injection h with h; subst h; rfl
    | none =>
      rw [ht] at h
      simp only at h
      by_cases hslash : '/' ∈ stripOneAt name
      · rw [if_pos hslash] at h; cases h
      · rw [if_neg hslash] at h; injection h with h; subst h; exact hh

theorem expandLoopFuel_happened (teams : Teams) (issue : Issue) (config : AssignConfig) :
    ∀ (fuel : Nat) (st : ExpandSt) (e : List Str) (hap : Bool),
      expandLoopFuel teams issue config fuel st = some (.ok (e, hap)) →
      st.happened = true → hap = true := by
  intro fuel
  induction fuel with
  | zero => intro st e hap hr; cases hr
  | succ n ih =>
    intro st e hap hr hh
    rw [expandLoopFuel] at hr
    cases hst : st.stack with
    | nil =>
      rw [hst] at hr
      simp only at hr
      injection hr with hr
      injection hr with hr
      have h2 := congrArg Prod.snd hr
      simp only at h2
      rw [← h2]
      exact hh
    | cons name rest =>
      rw [hst] at hr
      simp only at hr
      cases hc : expandClassify teams issue config name { st with stack := rest } with
      | error e' => rw [hc] at hr; simp only at hr; cases hr
      | ok st' =>
        rw [hc] at hr
        simp only at hr
        exact ih st' e hap hr (expandClassify_happened hc hh)

theorem expandLoopFuel_nil {teams : Teams} {issue : Issue} {config : AssignConfig}
    {fuel : Nat} {seen exp : List Str} {hap : Bool}
    {r : Except FindReviewerError (List Str × Bool)}
    (h : expandLoopFuel teams issue config fuel ⟨[], seen, exp, hap⟩ = some r) :
    r = .ok (exp, hap) := by
  cases fuel with
  | zero => cases h
  | succ n =>
    rw [expandLoopFuel] at h
    simp only at h
    injection h with h
    exact h.symm

theorem expand_single_user {teams : Teams} {issue : Issue} {config : AssignConfig}
    {n : Str} {e : List Str}
    (h : expand_teams_and_groups teams issue config [n] = some (.ok (e, false))) :
    e = [stripOneAt n] := by
  unfold expand_teams_and_groups at h
  simp only [List.reverse_cons, List.reverse_nil, List.nil_append] at h
  rw [expandLoopFuel] at h
  simp only at h
  cases hc : expandClassify teams issue config n
      { stack := [], seen := [], expanded := [], happened := false } with
  | error e' => rw [hc] at h; simp only at h; cases h
  | ok st' =>
    rw [hc] at h
    simp only at h
    -- find out what st' is
    simp only [expandClassify] at hc
    cases hg : lookupGroup config (stripOrganization issue n) with
    | some members =>
      rw [hg] at hc
      simp only at hc
      rw [if_neg (List.not_mem_nil _)] at hc
      injection hc with hc
      subst hc
      have := expandLoopFuel_happened teams issue config _ _ _ _ h rfl
      cases this
    | none =>
      rw [hg] at hc
      simp only at hc
      cases ht : (get_team_name teams issue n).bind (lookupTeam teams) with
      | some team =>
        rw [ht] at hc
        simp only at hc
        injection hc with hc
        subst hc
        have := expandLoopFuel_happened teams issue config _ _ _ _ h rfl
        cases this
      | none =>
        rw [ht] at hc
        simp only at hc
        by_cases hslash : '/' ∈ stripOneAt n
        · rw [if_pos hslash] at hc; cases hc
        · rw [if_neg hslash] at hc
          injection hc with hc
          subst hc
          have hr := expandLoopFuel_nil h
          injection hr with hr
          have h2 := congrArg Prod.fst hr
          simp only at h2
          rw [h2]
          simp [setInsert]

/-! ## Lemmas: the candidate filter -/

theorem validOf_all_error {config : AssignConfig} {issue : Issue} {exp : List Str}
    (hall : ∀ c ∈ exp, excludeReason config issue c ≠ none) :
    validOf (exp.map (classifyCandidate config issue)) = [] := by
  induction exp with
  | nil => rfl
  | cons a tl ih =>
    have ha := hall a (List.mem_cons_self _ _)
    cases he : excludeReason config issue a with
    | none => exact absurd he ha
    | some e =>
      have htl := ih (fun c hc => hall c (List.mem_cons_of_mem _ hc))
      simp only [validOf, List.map_cons, List.filterMap_cons, classifyCandidate, he]
      simpa [validOf] using htl

theorem excludeReason_cases {config : AssignConfig} {issue : Issue} {c : Str}
    {r : FindReviewerError} (h : excludeReason config issue c = some r) :
    r = .reviewerIsPrAuthor c ∨ r = .reviewerOnVacation c ∨
      r = .reviewerAlreadyAssigned c := by
  simp only [excludeReason] at h
  split_ifs at h with h1 h2 h3
  · injection h with h; subst h; exact Or.inl rfl
  · injection h with h; subst h; exact Or.inr (Or.inl rfl)
  · injection h with h; subst h; exact Or.inr (Or.inr rfl)

/-! ## Claim C1 -/

/-- C1: for every resolve call in which every expanded candidate is excluded —
if the original request was exactly one name and no group/team expansion
happened, the result is that single user's specific exclusion error, never the
generic `NoReviewer`; otherwise the result is `NoReviewer{initial: names}`. -/
theorem c1_single_user_specific_error
    (teams : Teams) (config : AssignConfig) (issue : Issue) (names : List Str)
    (exp : List Str) (happened : Bool)
    (hexp : expand_teams_and_groups teams issue config names = some (.ok (exp, happened)))
    (hall : ∀ c ∈ exp, excludeReason config issue c ≠ none) :
    ((names.length = 1 ∧ happened = false) →
      ∃ u r, exp = [u] ∧ excludeReason config issue u = some r ∧
        candidate_reviewers_from_names teams config issue names = some (.error r) ∧
        ∀ init, r ≠ .noReviewer init) ∧
    (¬(names.length = 1 ∧ happened = false) →
      candidate_reviewers_from_names teams config issue names =
        some (.error (.noReviewer names))) := by
  have hvalid := validOf_all_error hall
  constructor
  · rintro ⟨hlen, hhap⟩
    subst hhap
    obtain ⟨n, hn⟩ : ∃ n, names = [n] := by
      cases names with
      | nil => cases hlen
      | cons a tl =>
        cases tl with
        | nil => exact ⟨a, rfl⟩
        | cons b tl2 => simp at hlen
    subst hn
    have hu := expand_single_user hexp
    subst hu
    obtain ⟨r, hr⟩ : ∃ r, excludeReason config issue (stripOneAt n) = some r := by
      have hne := hall (stripOneAt n) (by simp)
      cases he : excludeReason config issue (stripOneAt n) with
      | none => exact absurd he hne
      | some r => exact ⟨r, rfl⟩
    refine ⟨stripOneAt n, r, rfl, hr, ?_, ?_⟩
    · simp only [candidate_reviewers_from_names, hexp]
      rw [hvalid]
      simp only [List.isEmpty_nil, if_true]
      rw [if_pos (by constructor <;> trivial)]
      simp [classifyCandidate, hr]
    · intro init
      rcases excludeReason_cases hr with h | h | h <;> (subst h; simp)
  · intro hns
    simp only [candidate_reviewers_from_names, hexp]
    rw [hvalid]
    simp only [List.isEmpty_nil, if_true]
    rw [if_neg hns]

/-- Fixtures for concrete runs: no teams. -/
def emptyTeams : Teams := ⟨[]⟩

/-- Fixture: an issue authored by `alice` with no assignees. -/
def issueAlice : Issue := ⟨str "alice", [], str "rust-lang"⟩

/-- Fixture: no owners, no groups, `bob` on vacation. -/
def cfgVacBob : AssignConfig := ⟨[], [], [str "bob"]⟩

/-- Witness for C1: requesting the single literal user `bob` while `bob` is on
vacation yields `bob`'s specific error through the theorem. -/
theorem c1_single_user_specific_error_witness :
    candidate_reviewers_from_names emptyTeams cfgVacBob issueAlice [str "bob"] =
      some (.error (.reviewerOnVacation (str "bob"))) := by
  have h := (c1_single_user_specific_error emptyTeams cfgVacBob issueAlice
      [str "bob"] [str "bob"] false (by decide) (by decide)).1 (And.intro rfl rfl)
  obtain ⟨u, r, hu, hr, hres, -⟩ := h
  have hu' : str "bob" = u := by simpa using hu
  subst hu'
  have he : excludeReason cfgVacBob issueAlice (str "bob") =
      some (.reviewerOnVacation (str "bob")) := by decide
  rw [he] at hr
  injection hr with hr
  subst hr
  exact hres

/-! ## Helper lemmas: single-user resolution outcomes -/

theorem candidate_single_excluded {teams : Teams} {config : AssignConfig}
    {issue : Issue} {name u : Str} {r : FindReviewerError}
    (hexp : expand_teams_and_groups teams issue config [name] = some (.ok ([u], false)))
    (hr : excludeReason config issue u = some r) :
    candidate_reviewers_from_names teams config issue [name] = some (.error r) := by
  have hvalid : validOf ([u].map (classifyCandidate config issue)) = [] := by
    apply validOf_all_error
    intro c hc
    rw [List.mem_singleton.mp hc, hr]
    simp
  simp only [candidate_reviewers_from_names, hexp]
  rw [hvalid]
  simp only [List.isEmpty_nil, if_true]
  rw [if_pos (by constructor <;> trivial)]
  simp [classifyCandidate, hr]

theorem candidate_single_ok {teams : Teams} {config : AssignConfig}
    {issue : Issue} {name u : Str}
    (hexp : expand_teams_and_groups teams issue config [name] = some (.ok ([u], false)))
    (hr : excludeReason config issue u = none) :
    candidate_reviewers_from_names teams config issue [name] = some (.ok [u]) := by
  simp only [candidate_reviewers_from_names, hexp]
  have hc : [u].map (classifyCandidate config issue) = [Except.ok u] := by
    simp [classifyCandidate, hr]
  rw [hc]
  simp [validOf]

/-! ## Claim C2 -/

/-- Fixture: an issue authored by `alice` where `bob` is already assigned. -/
def issueBobAssigned : Issue := ⟨str "alice", [str "bob"], str "rust-lang"⟩

/-- Counterexample for C2: `bob` is both already assigned and on vacation;
the claim predicts `ReviewerAlreadyAssigned`, the code returns
`ReviewerOnVacation`. -/
theorem c2_counterexample :
    candidate_reviewers_from_names emptyTeams cfgVacBob issueBobAssigned [str "bob"] =
      some (.error (.reviewerOnVacation (str "bob"))) ∧
    FindReviewerError.reviewerOnVacation (str "bob") ≠
      FindReviewerError.reviewerAlreadyAssigned (str "bob") :=
  ⟨by decide, by decide⟩

/-- C2 (amended): the filter records only the first exclusion reason in the
order author, then off-rotation (vacation), then already-assigned; being the
PR author wins over everything, and for a single literal user who is on
vacation but not the author the error is `ReviewerOnVacation` regardless of
whether the user is also already assigned. -/
theorem c2_priority_author_vacation_assigned
    (teams : Teams) (config : AssignConfig) (issue : Issue) (name u : Str)
    (hexp : expand_teams_and_groups teams issue config [name] = some (.ok ([u], false))) :
    (strLower u = strLower issue.author →
      candidate_reviewers_from_names teams config issue [name] =
        some (.error (.reviewerIsPrAuthor u))) ∧
    (strLower u ≠ strLower issue.author → is_on_vacation config u = true →
      candidate_reviewers_from_names teams config issue [name] =
        some (.error (.reviewerOnVacation u))) := by
  constructor
  · intro hauth
    apply candidate_single_excluded hexp
    simp only [excludeReason]
    rw [if_pos (by simpa using hauth)]
  · intro hauth hvac
    apply candidate_single_excluded hexp
    simp only [excludeReason]
    rw [if_neg (by simpa using hauth), if_pos (by simpa using hvac)]

/-- Witness for C2 (amended): `bob` assigned and on vacation, not the author —
the result is `bob`'s vacation error, obtained through the theorem. -/
theorem c2_priority_witness :
    candidate_reviewers_from_names emptyTeams cfgVacBob issueBobAssigned [str "bob"] =
      some (.error (.reviewerOnVacation (str "bob"))) :=
  (c2_priority_author_vacation_assigned emptyTeams cfgVacBob issueBobAssigned
    (str "bob") (str "bob") (by decide)).2 (by decide) (by decide)

/-! ## Claim C4 -/

/-- Fixture: the circular ad-hoc group configuration `A = [B]`, `B = [A]`. -/
def cfgCycleAB : AssignConfig :=
  ⟨[], [(str "A", [str "B"]), (str "B", [str "A"])], []⟩

/-- C4: expansion terminates on every input — the fuelled loop, run with its
explicit measure bound, always yields a result (groups are expanded at most
once thanks to the `seen` set, which is what makes the measure decrease) —
and on the circular configuration `A = [B]`, `B = [A]` resolving `A` expands
to the empty user set and the resolution returns the generic `NoReviewer`. -/
theorem c4_expansion_terminates :
    (∀ (teams : Teams) (issue : Issue) (config : AssignConfig) (names : List Str),
      (expand_teams_and_groups teams issue config names).isSome) ∧
    expand_teams_and_groups emptyTeams issueAlice cfgCycleAB [str "A"] =
      some (.ok ([], true)) ∧
    candidate_reviewers_from_names emptyTeams cfgCycleAB issueAlice [str "A"] =
      some (.error (.noReviewer [str "A"])) :=
  ⟨expand_teams_and_groups_isSome, by decide, by decide⟩

/-! ## Claim C8 -/

/-- C8: whenever the candidate filter succeeds, the returned candidate list is
non-empty, and for every random seed the selector returns (without reaching
its panicking `expect`) a reviewer belonging to that list. -/
theorem c8_selector_sound
    (seed : Nat) (teams : Teams) (config : AssignConfig) (issue : Issue)
    (names : List Str) (s : List Str)
    (hok : candidate_reviewers_from_names teams config issue names = some (.ok s)) :
    s ≠ [] ∧ ∃ u, find_reviewer_from_names seed teams config issue names =
      some (.ok u) ∧ u ∈ s := by
  have hne : s ≠ [] := by
    intro hnil
    subst hnil
    rw [candidate_reviewers_from_names] at hok
    cases hexp : expand_teams_and_groups teams issue config names with
    | none => rw [hexp] at hok; cases hok
    | some r =>
      rw [hexp] at hok
      cases r with
      | error e => simp only at hok; cases hok
      | ok p =>
        obtain ⟨exp, hap⟩ := p
        simp only at hok
        by_cases hemp : (validOf (exp.map (classifyCandidate config issue))).isEmpty
        · rw [if_pos hemp] at hok
          by_cases hsingle : names.length = 1 ∧ hap = false
          · rw [if_pos hsingle] at hok
            cases hlast : (exp.map (classifyCandidate config issue)).getLast? with
            | none => rw [hlast] at hok; cases hok
            | some r' =>
              rw [hlast] at hok
              cases r' with
              | error e => simp only at hok; cases hok
              | ok c => simp only at hok; cases hok
          · rw [if_neg hsingle] at hok
            cases hok
        · rw [if_neg hemp] at hok
          injection hok with hok
          injection hok with hok
          rw [hok] at hemp
          exact hemp rfl
  refine ⟨hne, ?_⟩
  simp only [find_reviewer_from_names, hok]
  by_cases hg : str "ghost" ∈ s
  · rw [if_pos hg]
    exact ⟨str "ghost", rfl, hg⟩
  · rw [if_neg hg]
    have hlen : 0 < s.length := List.length_pos.mpr hne
    have hmod : seed % s.length < s.length := Nat.mod_lt _ hlen
    refine ⟨s.get ⟨seed % s.length, hmod⟩, ?_, List.get_mem _ _ _⟩
    simp only [chooseRand, List.get?_eq_get hmod]

/-- Fixture: empty configuration (no owners, groups or vacations). -/
def cfgEmpty : AssignConfig := ⟨[], [], []⟩

/-- Witness for C8: one successful run where the selector picks the only
candidate. -/
theorem c8_selector_sound_witness :
    ([str "bob"] : List Str) ≠ [] ∧
    ∃ u, find_reviewer_from_names 0 emptyTeams cfgEmpty issueAlice [str "bob"] =
      some (.ok u) ∧ u ∈ [str "bob"] :=
  c8_selector_sound 0 emptyTeams cfgEmpty issueAlice [str "bob"] [str "bob"] (by decide)

/-! ## Claim C5 -/

/-- Fixture: `ghost` is on the vacation list. -/
def cfgVacGhost : AssignConfig := ⟨[], [], [str "ghost"]⟩

/-- Counterexample for C5: the expanded candidate set of a direct request for
`ghost` contains `ghost`, yet with `ghost` on the vacation list the resolution
returns the vacation error instead of short-circuiting to `{ghost}` — the
ghost check runs only after exclusion filtering, on the valid set. -/
theorem c5_counterexample :
    expand_teams_and_groups emptyTeams issueAlice cfgVacGhost [str "ghost"] =
      some (.ok ([str "ghost"], false)) ∧
    find_reviewer_from_names 0 emptyTeams cfgVacGhost issueAlice [str "ghost"] =
      some (.error (.reviewerOnVacation (str "ghost"))) :=
  ⟨by decide, by decide⟩

/-- C5 (amended): the ghost short-circuit applies to the filtered valid
candidate set: whenever the candidate filter succeeds and its result contains
`ghost`, selection returns `ghost` for every seed (so a direct request for
`ghost` succeeds provided `ghost` survives the exclusion filter). -/
theorem c5_ghost_short_circuit
    (seed : Nat) (teams : Teams) (config : AssignConfig) (issue : Issue)
    (names : List Str) (s : List Str)
    (hok : candidate_reviewers_from_names teams config issue names = some (.ok s))
    (hg : str "ghost" ∈ s) :
    find_reviewer_from_names seed teams config issue names = some (.ok (str "ghost")) := by
  simp only [find_reviewer_from_names, hok]
  rw [if_pos hg]

/-- Witness for C5 (amended): a direct request for an unfiltered `ghost`
returns `ghost`. -/
theorem c5_ghost_short_circuit_witness :
    find_reviewer_from_names 0 emptyTeams cfgEmpty issueAlice [str "ghost"] =
      some (.ok (str "ghost")) :=
  c5_ghost_short_circuit 0 emptyTeams cfgEmpty issueAlice [str "ghost"]
    [str "ghost"] (by decide) (by decide)

/-! ## Claim C7 -/

/-- Fixture: a team named `compiler` whose only member is `t-user1`. -/
def teamsCompiler : Teams := ⟨[(str "compiler", ⟨[str "t-user1"]⟩)]⟩

/-- Fixture: an ad-hoc group named `compiler` with member `user2`. -/
def cfgGroupCompiler : AssignConfig := ⟨[], [(str "compiler", [str "user2"])], []⟩

/-- Counterexample for C7: the reference `t-compiler` equals the ad-hoc group
name `compiler` after `@`/organization/`t-` stripping, yet the expander does
not expand the group (group lookup never strips `t-`): it expands the
same-named team instead, yielding the team member `t-user1` and not the group
member `user2`. -/
theorem c7_counterexample :
    trimStartMatches (str "T-") (trimStartMatches (str "t-")
      (stripOrganization issueAlice (str "t-compiler"))) = str "compiler" ∧
    lookupGroup cfgGroupCompiler (str "compiler") = some [str "user2"] ∧
    expand_teams_and_groups teamsCompiler issueAlice cfgGroupCompiler
      [str "t-compiler"] = some (.ok ([str "t-user1"], true)) :=
  ⟨by decide, by decide, by decide⟩

/-- C7 (amended): a reference that, after stripping an optional `@` and an
optional `organization/` prefix (no `t-`/`T-` stripping), equals a known
ad-hoc group name is always classified as that group — `expansion_happened`
is set and the group's members are pushed (once) — for every team
configuration, so ad-hoc groups take priority over same-named teams. -/
theorem c7_group_classification
    (issue : Issue) (config : AssignConfig) (name : Str)
    (members : List Str) (st : ExpandSt)
    (hg : lookupGroup config (stripOrganization issue name) = some members) :
    ∀ teams : Teams,
      expandClassify teams issue config name st =
        (if stripOrganization issue name ∈ st.seen then
          .ok ⟨st.stack, st.seen, st.expanded, true⟩
        else
          .ok ⟨members.reverse ++ st.stack,
               st.seen ++ [stripOrganization issue name], st.expanded, true⟩) := by
  intro teams
  simp only [expandClassify, hg]

/-- Witness for C7 (amended): the reference `compiler` is classified as the
ad-hoc group even though a team `compiler` exists. -/
theorem c7_group_classification_witness :
    expandClassify teamsCompiler issueAlice cfgGroupCompiler (str "compiler")
      { stack := [], seen := [], expanded := [], happened := false } =
      .ok { stack := [str "user2"], seen := [str "compiler"],
            expanded := [], happened := true } := by
  rw [c7_group_classification issueAlice cfgGroupCompiler (str "compiler")
    [str "user2"] { stack := [], seen := [], expanded := [], happened := false }
    (by decide) teamsCompiler]
  decide

/-! ## Claim C10 -/

/-- C10: a comment-issued assigning command (claim, assign-user or
request-review) whose single resolved target is on vacation — and is not the
sentinel `ghost`, not the PR author, and not already assigned — fails inside
the resolution with `ReviewerOnVacation`, for every requester including the
target themselves, so the handler's vacation self-assignment allowance branch
is never reached on this path. -/
theorem c10_vacation_blocks_resolution
    (seed : Nat) (teams : Teams) (config : AssignConfig) (issue : Issue)
    (botName eventUser : Str) (cmd : AssignCommand) (target u : Str)
    (hcmd : commandTarget eventUser cmd = some target)
    (hexp : expand_teams_and_groups teams issue config [target] =
      some (.ok ([u], false)))
    (hvac : is_on_vacation config u = true)
    (hghost : u ≠ str "ghost")
    (hauthor : strLower u ≠ strLower issue.author)
    (hassigned : issue.assignees.any (fun a => decide (strLower u = strLower a)) = false)
    (hbot : eventUser ≠ botName) :
    handle_command_pr seed teams config issue botName eventUser true false cmd =
      .resolutionFailed (.reviewerOnVacation u) ∧
    ∀ v, handle_command_pr seed teams config issue botName eventUser true false cmd ≠
      .vacationWarned v := by
  have hreason : excludeReason config issue u = some (.reviewerOnVacation u) := by
    simp only [excludeReason]
    rw [if_neg (by simpa using hauthor), if_pos (by simpa using hvac)]
  have hcand := candidate_single_excluded hexp hreason
  have hfind : find_reviewer_from_names seed teams config issue [target] =
      some (.error (.reviewerOnVacation u)) := by
    simp only [find_reviewer_from_names, hcand]
  have hmain : handle_command_pr seed teams config issue botName eventUser true false cmd =
      .resolutionFailed (.reviewerOnVacation u) := by
    simp only [handle_command_pr, if_neg hbot, Bool.not_true, hcmd, hfind]
    simp
  exact ⟨hmain, fun v hv => by rw [hmain] at hv; cases hv⟩

/-- Witness for C10: `bob` (on vacation) claims the PR themselves; the
resolution still fails with `bob`'s vacation error and the self-assignment
allowance is not reached. -/
theorem c10_vacation_blocks_resolution_witness :
    handle_command_pr 0 emptyTeams cfgVacBob issueAlice (str "triagebot")
      (str "bob") true false .claim =
      .resolutionFailed (.reviewerOnVacation (str "bob")) :=
  (c10_vacation_blocks_resolution 0 emptyTeams cfgVacBob issueAlice
    (str "triagebot") (str "bob") .claim (str "bob") (str "bob")
    (by decide) (by decide) (by decide) (by decide) (by decide) (by decide)
    (by decide)).1

/-! ## Claim C3 -/

theorem capacity_single_excluded {prefs : Str → Option Nat} {wq : Str → Nat}
    {teams : Teams} {config : AssignConfig} {issue : Issue} {name u : Str}
    {r : FindReviewerError}
    (hexp : expand_teams_and_groups teams issue config [name] = some (.ok ([u], false)))
    (hr : excludeReasonCap prefs wq config issue u = some r) :
    candidate_reviewers_with_capacity prefs wq teams config issue [name] =
      some (.error r) := by
  simp only [candidate_reviewers_with_capacity, hexp]
  have hc : [u].map (classifyCandidateCap prefs wq config issue) =
      [(Except.error r : Except FindReviewerError Str)] := by
    simp [classifyCandidateCap, hr]
  rw [hc]
  have hv : validOf [(Except.error r : Except FindReviewerError Str)] = [] := by
    simp [validOf]
  rw [hv]
  simp only [List.isEmpty_nil, if_true]
  rw [if_pos (by constructor <;> trivial)]
  rfl

theorem capacity_single_ok {prefs : Str → Option Nat} {wq : Str → Nat}
    {teams : Teams} {config : AssignConfig} {issue : Issue} {name u : Str}
    (hexp : expand_teams_and_groups teams issue config [name] = some (.ok ([u], false)))
    (hr : excludeReasonCap prefs wq config issue u = none) :
    candidate_reviewers_with_capacity prefs wq teams config issue [name] =
      some (.ok [u]) := by
  simp only [candidate_reviewers_with_capacity, hexp]
  have hc : [u].map (classifyCandidateCap prefs wq config issue) =
      [(Except.ok u : Except FindReviewerError Str)] := by
    simp [classifyCandidateCap, hr]
  rw [hc]
  simp [validOf]

/-- C3: the capacity rule for a single literal user (modelled from the spec,
§4.3 step 2d): with capacity 3 and 3 assigned PRs the resolution fails with
the at-max-capacity error; with capacity 3 and 2 assigned it succeeds; with no
capacity limit and 10 assigned it succeeds; with capacity 0 and 0 assigned it
fails with the at-max-capacity error. -/
theorem c3_capacity_rule
    (teams : Teams) (config : AssignConfig) (issue : Issue) (name u : Str)
    (hexp : expand_teams_and_groups teams issue config [name] = some (.ok ([u], false)))
    (hclean : excludeReason config issue u = none) :
    (∀ prefs wq, prefs u = some 3 → wq u = 3 →
      candidate_reviewers_with_capacity prefs wq teams config issue [name] =
        some (.error (.reviewerAtMaxCapacity u))) ∧
    (∀ prefs wq, prefs u = some 3 → wq u = 2 →
      candidate_reviewers_with_capacity prefs wq teams config issue [name] =
        some (.ok [u])) ∧
    (∀ prefs wq, prefs u = none → wq u = 10 →
      candidate_reviewers_with_capacity prefs wq teams config issue [name] =
        some (.ok [u])) ∧
    (∀ prefs wq, prefs u = some 0 → wq u = 0 →
      candidate_reviewers_with_capacity prefs wq teams config issue [name] =
        some (.error (.reviewerAtMaxCapacity u))) := by
  refine ⟨?_, ?_, ?_, ?_⟩
  · intro prefs wq hp hw
    apply capacity_single_excluded hexp
    simp [excludeReasonCap, hclean, at_max_capacity, hp, hw]
  · intro prefs wq hp hw
    apply capacity_single_ok hexp
    simp [excludeReasonCap, hclean, at_max_capacity, hp, hw]
  · intro prefs wq hp hw
    apply capacity_single_ok hexp
    simp [excludeReasonCap, hclean, at_max_capacity, hp, hw]
  · intro prefs wq hp hw
    apply capacity_single_excluded hexp
    simp [excludeReasonCap, hclean, at_max_capacity, hp, hw]

/-- Witness for C3: the four capacity scenarios evaluated for the single
literal user `bob`. -/
theorem c3_capacity_rule_witness :
    candidate_reviewers_with_capacity (fun _ => some 3) (fun _ => 3)
      emptyTeams cfgEmpty issueAlice [str "bob"] =
      some (.error (.reviewerAtMaxCapacity (str "bob"))) ∧
    candidate_reviewers_with_capacity (fun _ => some 3) (fun _ => 2)
      emptyTeams cfgEmpty issueAlice [str "bob"] = some (.ok [str "bob"]) ∧
    candidate_reviewers_with_capacity (fun _ => none) (fun _ => 10)
      emptyTeams cfgEmpty issueAlice [str "bob"] = some (.ok [str "bob"]) ∧
    candidate_reviewers_with_capacity (fun _ => some 0) (fun _ => 0)
      emptyTeams cfgEmpty issueAlice [str "bob"] =
      some (.error (.reviewerAtMaxCapacity (str "bob"))) := by
  have h := c3_capacity_rule emptyTeams cfgEmpty issueAlice (str "bob") (str "bob")
    (by decide) (by decide)
  exact ⟨h.1 _ _ rfl rfl, h.2.1 _ _ rfl rfl, h.2.2.1 _ _ rfl rfl, h.2.2.2 _ _ rfl rfl⟩

/-! ## Claim C9 -/

theorem buildLongest_error (globBuild : Str → Option (Str → Bool)) (path : Str) :
    ∀ (keys : List Str) (acc : List (Str × Nat)) (p : Str),
      p ∈ keys → globBuild p = none →
      ∃ msg, buildLongest globBuild path keys acc = .error msg := by
  intro keys
  induction keys with
  | nil => intro acc p hp; cases hp
  | cons k kt ih =>
    intro acc p hp hbad
    cases hk : globBuild k with
    | none => exact ⟨_, by rw [buildLongest, hk]⟩
    | some m =>
      rcases List.mem_cons.mp hp with hp | hp
      · subst hp; rw [hbad] at hk; cases hk
      · obtain ⟨msg, hmsg⟩ := ih _ p hp hbad
        exact ⟨msg, by rw [buildLongest, hk]; exact hmsg⟩

theorem find_reviewers_from_diff_error {globBuild : Str → Option (Str → Bool)}
    {config : AssignConfig} {diff : List FileDiff} {p : Str}
    (hp : p ∈ config.owners.map Prod.fst) (hbad : globBuild p = none)
    (hdiff : diff ≠ []) :
    ∃ msg, find_reviewers_from_diff globBuild config diff = .error msg := by
  cases diff with
  | nil => exact absurd rfl hdiff
  | cons fd rest =>
    obtain ⟨msg, hmsg⟩ := buildLongest_error globBuild fd.path
      (config.owners.map Prod.fst) [] p hp hbad
    refine ⟨msg, ?_⟩
    rw [find_reviewers_from_diff, diffLoop, processFile, longestOwnerPatterns, hmsg]

theorem find_reviewers_from_diff_nil (globBuild : Str → Option (Str → Bool))
    (config : AssignConfig) :
    find_reviewers_from_diff globBuild config [] = .ok [] := rfl

theorem determineFromDiff_of_error {globBuild : Str → Option (Str → Bool)}
    {config : AssignConfig} {diff : List FileDiff} {msg : Str}
    (seed2 seed3 : Nat) (teams : Teams) (issue : Issue)
    (comments : List FindReviewerError)
    (herr : find_reviewers_from_diff globBuild config diff = .error msg) :
    determineFromDiff globBuild seed2 seed3 teams config issue diff comments =
      determineFromDiff globBuild seed2 seed3 teams config issue [] comments := by
  rw [determineFromDiff, herr, determineFromDiff,
    find_reviewers_from_diff_nil globBuild config]
  rfl

/-- C9: a malformed glob pattern in the owners map never crashes the new-PR
coordinator and posts no comment: the whole decision (result and posted
comments) is exactly what it would have been had the diff tier yielded zero
candidates, falling through to the fallback tier. -/
theorem c9_malformed_pattern_falls_through
    (globBuild : Str → Option (Str → Bool)) (seed1 seed2 seed3 : Nat)
    (teams : Teams) (config : AssignConfig) (issue : Issue)
    (bodyName : Option Str) (diff : List FileDiff) (p : Str)
    (hp : p ∈ config.owners.map Prod.fst) (hbad : globBuild p = none) :
    determine_assignee globBuild seed1 seed2 seed3 teams config issue bodyName diff =
      determine_assignee globBuild seed1 seed2 seed3 teams config issue bodyName [] := by
  by_cases hdiff : diff = []
  · rw [hdiff]
  · obtain ⟨msg, herr⟩ := find_reviewers_from_diff_error hp hbad hdiff
    cases bodyName with
    | none =>
      simp only [determine_assignee]
      exact determineFromDiff_of_error seed2 seed3 teams issue [] herr
    | some nm =>
      simp only [determine_assignee]
      by_cases hself : is_self_assign nm issue.author = true
      · rw [if_pos hself, if_pos hself]
      · rw [if_neg hself, if_neg hself]
        cases hfr : find_reviewer_from_names seed1 teams config issue [nm] with
        | none => rfl
        | some r =>
          cases r with
          | ok a => rfl
          | error e =>
            simp only
            exact determineFromDiff_of_error seed2 seed3 teams issue [e] herr

/-- Fixture: an owners map with a single pattern `src` owned by `alice`. -/
def cfgOwnersSrc : AssignConfig := ⟨[(str "src", [str "alice"])], [], []⟩

/-- Witness for C9: with a glob engine rejecting every pattern, a non-empty
diff decides exactly like an empty one. -/
theorem c9_malformed_pattern_falls_through_witness :
    determine_assignee (fun _ => none) 0 0 0 emptyTeams cfgOwnersSrc issueAlice
      none [⟨str "f", str ""⟩] =
      determine_assignee (fun _ => none) 0 0 0 emptyTeams cfgOwnersSrc issueAlice
        none [] :=
  c9_malformed_pattern_falls_through (fun _ => none) 0 0 0 emptyTeams cfgOwnersSrc
    issueAlice none [⟨str "f", str ""⟩] (str "src") (by decide) rfl

/-! ## Lemmas: the byte order used by `Vec::sort` -/

theorem lexLe_total : ∀ a b : Str, lexLe a b = true ∨ lexLe b a = true := by
  intro a
  induction a with
  | nil => intro b; left; rfl
  | cons x xs ih =>
    intro b
    cases b with
    | nil => right; rfl
    | cons y ys =>
      by_cases hxy : x < y
      · left; simp [lexLe, hxy]
      · by_cases hyx : y < x
        · right; simp [lexLe, hyx]
        · rcases ih ys with h | h
          · left; simp [lexLe, hxy, hyx, h]
          · right; simp [lexLe, hxy, hyx, h]

theorem lexLe_antisymm : ∀ a b : Str, lexLe a b = true → lexLe b a = true → a = b := by
  intro a
  induction a with
  | nil =>
    intro b _ h2
    cases b with
    | nil => rfl
    | cons y ys => simp [lexLe] at h2
  | cons x xs ih =>
    intro b h1 h2
    cases b with
    | nil => simp [lexLe] at h1
    | cons y ys =>
      by_cases hxy : x < y
      · simp [lexLe, hxy, asymm hxy] at h2
      · by_cases hyx : y < x
        · simp [lexLe, hxy, hyx] at h1
        · have hx : x = y := le_antisymm (le_of_not_lt hyx) (le_of_not_lt hxy)
          subst hx
          simp only [lexLe, if_neg hxy, if_neg hyx] at h1 h2
          rw [ih ys h1 h2]

theorem lexLe_trans : ∀ a b c : Str,
    lexLe a b = true → lexLe b c = true → lexLe a c = true := by
  intro a
  induction a with
  | nil => intro b c _ _; rfl
  | cons x xs ih =>
    intro b c h1 h2
    cases b with
    | nil => simp [lexLe] at h1
    | cons y ys =>
      cases c with
      | nil => simp [lexLe] at h2
      | cons z zs =>
        by_cases hxy : x < y
        · by_cases hyz : y < z
          · simp [lexLe, lt_trans hxy hyz]
          · by_cases hzy : z < y
            · simp [lexLe, hyz, hzy] at h2
            · have hy : y = z := le_antisymm (le_of_not_lt hzy) (le_of_not_lt hyz)
              subst hy
              simp [lexLe, hxy]
        · by_cases hyx : y < x
          · simp [lexLe, hxy, hyx] at h1
          · have hx : x = y := le_antisymm (le_of_not_lt hyx) (le_of_not_lt hxy)
            subst hx
            simp only [lexLe, if_neg hxy, if_neg hyx] at h1
            by_cases hyz : x < z
            · simp [lexLe, hyz]
            · by_cases hzy : z < x
              · simp [lexLe, hyz, hzy] at h2
              · simp only [lexLe, if_neg hyz, if_neg hzy] at h2 ⊢
                exact ih ys zs h1 h2

instance : IsTotal Str (fun a b => lexLe a b = true) := ⟨lexLe_total⟩

instance : IsTrans Str (fun a b => lexLe a b = true) :=
  ⟨fun a b c => lexLe_trans a b c⟩

instance : IsAntisymm Str (fun a b => lexLe a b = true) :=
  ⟨fun a b => lexLe_antisymm a b⟩

theorem sortStr_sorted (l : List Str) :
    List.Sorted (fun a b => lexLe a b = true) (sortStr l) :=
  List.sorted_insertionSort _ l

theorem sortStr_perm (l : List Str) : List.Perm (sortStr l) l :=
  List.perm_insertionSort _ l

/-- Permutation-equal inputs sort to the same list. -/
theorem sortStr_eq_of_perm {l₁ l₂ : List Str} (h : List.Perm l₁ l₂) :
    sortStr l₁ = sortStr l₂ :=
  List.eq_of_perm_of_sorted ((sortStr_perm l₁).trans (h.trans (sortStr_perm l₂).symm))
    (sortStr_sorted l₁) (sortStr_sorted l₂)

/-! ## Lemmas: maxima and sums over `Nat` lists -/

theorem foldl_max_eq : ∀ (t : List Nat) (a : Nat), t.foldl max a = max a (t.foldr max 0) := by
  intro t
  induction t with
  | nil => intro a; simp
  | cons b t2 ih =>
    intro a
    simp only [List.foldl_cons, List.foldr_cons, ih (max a b), Nat.max_assoc]

/-- `.max().unwrap_or(0)` agrees with folding `max` over the list. -/
theorem natMax_eq_foldr : ∀ l : List Nat, (l.max?).getD 0 = l.foldr max 0 := by
  intro l
  cases l with
  | nil => rfl
  | cons a t =>
    rw [List.max?_cons', Option.getD_some, foldl_max_eq, List.foldr_cons]

theorem le_foldr_max_of_mem {l : List Nat} {a : Nat} (h : a ∈ l) :
    a ≤ l.foldr max 0 := by
  induction l with
  | nil => cases h
  | cons b t ih =>
    rcases List.mem_cons.mp h with h | h
    · subst h; exact Nat.le_max_left _ _
    · exact (ih h).trans (Nat.le_max_right _ _)

theorem foldr_max_le {l : List Nat} {b : Nat} (h : ∀ a ∈ l, a ≤ b) :
    l.foldr max 0 ≤ b := by
  induction l with
  | nil => exact Nat.zero_le _
  | cons a t ih =>
    simp only [List.foldr_cons]
    exact Nat.max_le.mpr ⟨h a (List.mem_cons_self _ _),
      ih (fun x hx => h x (List.mem_cons_of_mem _ hx))⟩

theorem natSum_pos_iff (f : α → Nat) :
    ∀ l : List α, 0 < (l.map f).sum ↔ ∃ x ∈ l, 0 < f x := by
  intro l
  induction l with
  | nil => simp
  | cons a t ih =>
    simp only [List.map_cons, List.sum_cons, List.mem_cons]
    constructor
    · intro h
      rcases Nat.eq_zero_or_pos (f a) with h2 | h2
      · rw [h2, Nat.zero_add] at h
        obtain ⟨x, hx, hfx⟩ := ih.mp h
        exact ⟨x, Or.inr hx, hfx⟩
      · exact ⟨a, Or.inl rfl, h2⟩
    · rintro ⟨x, hx | hx, hfx⟩
      · subst hx; exact Nat.lt_of_lt_of_le hfx (Nat.le_add_right _ _)
      · exact Nat.lt_of_lt_of_le (ih.mpr ⟨x, hx, hfx⟩) (Nat.le_add_left _ _)

/-! ## Lemmas: the `counts` association list of the diff matcher -/

/-- The value of the `counts` map at a key (0 when absent). -/
def countOf (l : List (Str × Nat)) (k : Str) : Nat := (l.lookup k).getD 0

/-- The keys of the `counts` map. -/
def keysOf (l : List (Str × Nat)) : List Str := l.map Prod.fst

theorem countOf_cons (a : Str) (v : Nat) (t : List (Str × Nat)) (k : Str) :
    countOf ((a, v) :: t) k = if k = a then v else countOf t k := by
  by_cases h : k = a
  · simp [countOf, List.lookup, h]
  · simp only [countOf, List.lookup, if_neg h]
    rw [show (k == a) = false by simpa using h]

theorem keysOf_bump (l : List (Str × Nat)) (k : Str) :
    keysOf (bump l k) = if k ∈ keysOf l then keysOf l else keysOf l ++ [k] := by
  induction l with
  | nil => simp [bump, keysOf]
  | cons p t ih =>
    obtain ⟨a, v⟩ := p
    by_cases hak : a = k
    · subst hak
      simp [bump, keysOf]
    · rw [bump, if_neg hak]
      by_cases hk : k ∈ keysOf t
      · have : k ∈ keysOf ((a, v) :: t) := by simp [keysOf] at hk ⊢; exact Or.inr hk
        rw [if_pos this]
        simp only [keysOf, List.map_cons] at ih ⊢
        rw [ih]
        rw [if_pos (by simpa [keysOf] using hk)]
      · have : k ∉ keysOf ((a, v) :: t) := by
          simp only [keysOf, List.map_cons, List.mem_cons]
          rintro (h | h)
          · exact hak h.symm
          · exact hk (by simpa [keysOf] using h)
        rw [if_neg this]
        simp only [keysOf, List.map_cons] at ih ⊢
        rw [ih, if_neg (by simpa [keysOf] using hk)]
        rfl

theorem countOf_bump (l : List (Str × Nat)) (k k' : Str) :
    countOf (bump l k) k' = countOf l k' + (if k' = k then 1 else 0) := by
  induction l with
  | nil =>
    by_cases h : k' = k
    · subst h; simp [bump, countOf, List.lookup]
    · rw [bump, countOf_cons, if_neg h]
      simp [countOf, List.lookup, h]
  | cons p t ih =>
    obtain ⟨a, v⟩ := p
    by_cases hak : a = k
    · subst hak
      rw [bump, if_pos rfl, countOf_cons, countOf_cons]
      by_cases h : k' = a
      · rw [if_pos h, if_pos h, if_pos h]
      · rw [if_neg h, if_neg h, if_neg h, Nat.add_zero]
    · rw [bump, if_neg hak, countOf_cons, countOf_cons]
      by_cases h : k' = a
      · rw [if_pos h, if_pos h, if_neg (fun hkk => hak (h.symm.trans hkk)), Nat.add_zero]
      · rw [if_neg h, if_neg h, ih]

theorem nodup_keysOf_bump {l : List (Str × Nat)} (h : (keysOf l).Nodup) (k : Str) :
    (keysOf (bump l k)).Nodup := by
  rw [keysOf_bump]
  by_cases hk : k ∈ keysOf l
  · rw [if_pos hk]; exact h
  · rw [if_neg hk]
    refine List.nodup_append.mpr ⟨h, List.nodup_singleton _, ?_⟩
    intro a hal hasingle
    rw [List.mem_singleton.mp hasingle] at hal
    exact hk hal

theorem mem_keysOf_bump (l : List (Str × Nat)) (k k' : Str) :
    k' ∈ keysOf (bump l k) ↔ k' ∈ keysOf l ∨ k' = k := by
  rw [keysOf_bump]
  by_cases hk : k ∈ keysOf l
  · rw [if_pos hk]
    constructor
    · exact Or.inl
    · rintro (h | h)
      · exact h
      · subst h; exact hk
  · rw [if_neg hk]
    simp

theorem mem_alist_iff_lookup {l : List (Str × Nat)} (hnd : (keysOf l).Nodup)
    {k : Str} {v : Nat} : (k, v) ∈ l ↔ l.lookup k = some v := by
  induction l with
  | nil => simp [List.lookup]
  | cons p t ih =>
    obtain ⟨a, w⟩ := p
    simp only [keysOf, List.map_cons, List.nodup_cons] at hnd
    obtain ⟨ha, hnd'⟩ := hnd
    by_cases hk : k = a
    · subst hk
      rw [List.lookup, show (k == k) = true by simp]
      simp only [List.mem_cons]
      constructor
      · rintro (h | h)
        · injection h with h1 h2; rw [h2]
        · exact absurd (List.mem_map.mpr ⟨(k, v), h, rfl⟩) ha
      · intro h
        injection h with h
        exact Or.inl (by rw [h])
    · rw [List.lookup, show (k == a) = false by simpa using hk]
      simp only [List.mem_cons]
      rw [← ih hnd']
      constructor
      · rintro (h | h)
        · injection h with h1 _; exact absurd h1 hk
        · exact h
      · exact Or.inr

/-- The invariant tying keys and values of the `counts` map: a key is present
iff its count is positive (each insertion starts at 1 and only increments). -/
def goodCounts (c : List (Str × Nat)) : Prop :=
  ∀ k, k ∈ keysOf c ↔ 0 < countOf c k

theorem goodCounts_nil : goodCounts [] := by
  intro k
  simp [keysOf, countOf, List.lookup]

theorem goodCounts_bump {c : List (Str × Nat)} (h : goodCounts c) (k : Str) :
    goodCounts (bump c k) := by
  intro k'
  rw [mem_keysOf_bump, countOf_bump, h k']
  by_cases hk : k' = k
  · simp [hk]
  · simp [hk]

theorem countOf_foldl_bump {lps : List Str} (hnd : lps.Nodup) :
    ∀ (c : List (Str × Nat)) (k : Str),
      countOf (lps.foldl bump c) k = countOf c k + (if k ∈ lps then 1 else 0) := by
  induction lps with
  | nil => intro c k; simp
  | cons p ps ih =>
    rw [List.nodup_cons] at hnd
    intro c k
    rw [List.foldl_cons, ih hnd.2, countOf_bump]
    by_cases hk : k = p
    · subst hk
      rw [if_pos rfl, if_pos (List.mem_cons_self _ _), if_neg hnd.1]
    · rw [if_neg hk]
      by_cases hk2 : k ∈ ps
      · rw [if_pos hk2, if_pos (List.mem_cons_of_mem _ hk2)]
      · rw [if_neg hk2, if_neg (by simp [hk, hk2])]

theorem mem_keysOf_foldl_bump (lps : List Str) :
    ∀ (c : List (Str × Nat)) (k : Str),
      k ∈ keysOf (lps.foldl bump c) ↔ k ∈ keysOf c ∨ k ∈ lps := by
  induction lps with
  | nil => intro c k; simp
  | cons p ps ih =>
    intro c k
    rw [List.foldl_cons, ih, mem_keysOf_bump]
    simp only [List.mem_cons]
    tauto

theorem nodup_keysOf_foldl_bump (lps : List Str) :
    ∀ {c : List (Str × Nat)}, (keysOf c).Nodup → (keysOf (lps.foldl bump c)).Nodup := by
  induction lps with
  | nil => intro c h; exact h
  | cons p ps ih =>
    intro c h
    rw [List.foldl_cons]
    exact ih (nodup_keysOf_bump h p)

theorem goodCounts_foldl_bump (lps : List Str) :
    ∀ {c : List (Str × Nat)}, goodCounts c → goodCounts (lps.foldl bump c) := by
  induction lps with
  | nil => intro c h; exact h
  | cons p ps ih =>
    intro c h
    rw [List.foldl_cons]
    exact ih (goodCounts_bump h p)

/-- The inner loop over the diff lines of one file. -/
theorem countOf_lineFold {lps : List Str} (hnd : lps.Nodup) :
    ∀ (lines : List Str) (c : List (Str × Nat)) (k : Str),
      countOf (lines.foldl
        (fun c line => if lineCounted line then lps.foldl bump c else c) c) k =
      countOf c k + (lines.filter lineCounted).length * (if k ∈ lps then 1 else 0) := by
  intro lines
  induction lines with
  | nil => intro c k; simp
  | cons ln rest ih =>
    intro c k
    rw [List.foldl_cons, List.filter_cons]
    by_cases hln : lineCounted ln = true
    · rw [if_pos hln, if_pos hln, ih, countOf_foldl_bump hnd]
      simp only [List.length_cons]
      by_cases hk : k ∈ lps
      · rw [if_pos hk]
        ring
      · rw [if_neg hk]
        ring
    · rw [if_neg hln, if_neg (by simpa using hln), ih]

theorem mem_keysOf_lineFold (lps : List Str) :
    ∀ (lines : List Str) (c : List (Str × Nat)) (k : Str),
      (k ∈ keysOf (lines.foldl
        (fun c line => if lineCounted line then lps.foldl bump c else c) c) ↔
       k ∈ keysOf c ∨ (k ∈ lps ∧ (lines.filter lineCounted) ≠ [])) := by
  intro lines
  induction lines with
  | nil => intro c k; simp
  | cons ln rest ih =>
    intro c k
    rw [List.foldl_cons, List.filter_cons]
    by_cases hln : lineCounted ln = true
    · rw [if_pos hln, if_pos hln, ih, mem_keysOf_foldl_bump]
      constructor
      · rintro ((h | h) | h)
        · exact Or.inl h
        · exact Or.inr ⟨h, by simp⟩
        · exact Or.inr ⟨h.1, by simp⟩
      · rintro (h | h)
        · exact Or.inl (Or.inl h)
        · exact Or.inl (Or.inr h.1)
    · rw [if_neg hln, if_neg (by simpa using hln), ih]

theorem nodup_keysOf_lineFold (lps : List Str) :
    ∀ (lines : List Str) {c : List (Str × Nat)},
      (keysOf c).Nodup →
      (keysOf (lines.foldl
        (fun c line => if lineCounted line then lps.foldl bump c else c) c)).Nodup := by
  intro lines
  induction lines with
  | nil => intro c h; exact h
  | cons ln rest ih =>
    intro c h
    rw [List.foldl_cons]
    by_cases hln : lineCounted ln = true
    · rw [if_pos hln]
      exact ih (nodup_keysOf_foldl_bump lps h)
    · rw [if_neg hln]
      exact ih h

theorem goodCounts_lineFold (lps : List Str) :
    ∀ (lines : List Str) {c : List (Str × Nat)},
      goodCounts c →
      goodCounts (lines.foldl
        (fun c line => if lineCounted line then lps.foldl bump c else c) c) := by
  intro lines
  induction lines with
  | nil => intro c h; exact h
  | cons ln rest ih =>
    intro c h
    rw [List.foldl_cons]
    by_cases hln : lineCounted ln = true
    · rw [if_pos hln]
      exact ih (goodCounts_foldl_bump lps h)
    · rw [if_neg hln]
      exact ih h

/-! ## Lemmas: per-file pattern selection -/

theorem buildLongest_ok (globBuild : Str → Option (Str → Bool)) (path : Str) :
    ∀ (keys : List Str) (acc : List (Str × Nat)),
      (∀ p ∈ keys, (globBuild p).isSome) →
      buildLongest globBuild path keys acc =
        .ok (acc ++ (keys.filter (fun p => matchesPat globBuild p path)).map
          (fun p => (p, patDepth p))) := by
  intro keys
  induction keys with
  | nil => intro acc _; simp [buildLongest]
  | cons k kt ih =>
    intro acc hv
    obtain ⟨m, hk⟩ := Option.isSome_iff_exists.mp (hv k (List.mem_cons_self _ _))
    have hrest : ∀ p ∈ kt, (globBuild p).isSome :=
      fun p hp => hv p (List.mem_cons_of_mem _ hp)
    have hmp : matchesPat globBuild k path = m path := by
      simp [matchesPat, hk]
    simp only [buildLongest, hk, List.filter_cons]
    by_cases hm : m path = true
    · rw [if_pos hm, ih _ hrest, if_pos (hmp.trans hm)]
      simp
    · rw [if_neg hm, ih _ hrest, if_neg (fun hc => hm (hmp.symm.trans hc))]

theorem filter_pair_map (g : Str → Nat) (d : Nat) :
    ∀ l : List Str,
      ((l.map (fun p => (p, g p))).filter (fun e => e.2 = d)).map Prod.fst =
        l.filter (fun p => g p = d) := by
  intro l
  induction l with
  | nil => rfl
  | cons a t ih =>
    simp only [List.map_cons, List.filter_cons]
    by_cases h : g a = d
    · simp only [show (decide ((a, g a).2 = d)) = true by simpa using h,
        show (decide (g a = d)) = true by simpa using h, eq_self_iff_true, if_true,
        List.map_cons, ih]
    · simp only [show (decide ((a, g a).2 = d)) = false by simpa using h,
        show (decide (g a = d)) = false by simpa using h, Bool.false_eq_true, if_false, ih]

theorem longestOwnerPatterns_ok {globBuild : Str → Option (Str → Bool)}
    {keys : List Str} (path : Str)
    (hv : ∀ p ∈ keys, (globBuild p).isSome) :
    longestOwnerPatterns globBuild keys path = .ok (longestSpec globBuild keys path) := by
  have hb := buildLongest_ok globBuild path keys [] hv
  have hmm : (List.map (fun p => (p, patDepth p))
      (keys.filter (fun p => matchesPat globBuild p path))).map Prod.snd =
      (keys.filter (fun p => matchesPat globBuild p path)).map patDepth := by
    rw [List.map_map]
    rfl
  simp only [longestOwnerPatterns, hb, List.nil_append, longestSpec, hmm]
  exact congrArg Except.ok (filter_pair_map patDepth _ _)

theorem longestSpec_nodup {globBuild : Str → Option (Str → Bool)}
    {keys : List Str} (hknd : keys.Nodup) (path : Str) :
    (longestSpec globBuild keys path).Nodup :=
  (hknd.filter _).filter _

theorem mem_longestSpec {globBuild : Str → Option (Str → Bool)}
    {keys : List Str} {path : Str} {k : Str}
    (h : k ∈ longestSpec globBuild keys path) : k ∈ keys := by
  simp only [longestSpec] at h
  exact (List.mem_filter.mp (List.mem_filter.mp h).1).1

/-! ## Lemmas: weight accumulation over the diff -/

theorem processFile_ok {globBuild : Str → Option (Str → Bool)} {keys : List Str}
    (hv : ∀ p ∈ keys, (globBuild p).isSome) (hknd : keys.Nodup)
    (c : List (Str × Nat)) (fd : FileDiff) :
    ∃ c', processFile globBuild keys c fd = .ok c' ∧
      (∀ k, countOf c' k = countOf c k +
        (if k ∈ longestSpec globBuild keys fd.path then 1 + changedLines fd else 0)) ∧
      ((keysOf c).Nodup → (keysOf c').Nodup) ∧
      (goodCounts c → goodCounts c') := by
  have hlps := longestOwnerPatterns_ok fd.path hv
  have hnd : (longestSpec globBuild keys fd.path).Nodup := longestSpec_nodup hknd fd.path
  refine ⟨(rustLines fd.diff).foldl
    (fun c line => if lineCounted line then
      (longestSpec globBuild keys fd.path).foldl bump c else c)
    ((longestSpec globBuild keys fd.path).foldl bump c), ?_, ?_, ?_, ?_⟩
  · simp only [processFile, hlps]
  · intro k
    rw [countOf_lineFold hnd, countOf_foldl_bump hnd]
    simp only [changedLines]
    by_cases hk : k ∈ longestSpec globBuild keys fd.path
    · simp only [if_pos hk]
      omega
    · simp only [if_neg hk]
      omega
  · intro h
    exact nodup_keysOf_lineFold _ _ (nodup_keysOf_foldl_bump _ h)
  · intro h
    exact goodCounts_lineFold _ _ (goodCounts_foldl_bump _ h)

theorem diffLoop_ok {globBuild : Str → Option (Str → Bool)} {keys : List Str}
    (hv : ∀ p ∈ keys, (globBuild p).isSome) (hknd : keys.Nodup) :
    ∀ (diff : List FileDiff) (c : List (Str × Nat)),
      (keysOf c).Nodup → goodCounts c →
      ∃ c', diffLoop globBuild keys diff c = .ok c' ∧
        (∀ k, countOf c' k = countOf c k + patternWeight globBuild keys diff k) ∧
        (keysOf c').Nodup ∧ goodCounts c' := by
  intro diff
  induction diff with
  | nil =>
    intro c h1 h2
    exact ⟨c, rfl, by intro k; simp [patternWeight], h1, h2⟩
  | cons fd rest ih =>
    intro c h1 h2
    obtain ⟨c1, hc1, hcount1, hnd1, hgood1⟩ := processFile_ok hv hknd c fd
    obtain ⟨c2, hc2, hcount2, hnd2, hgood2⟩ := ih c1 (hnd1 h1) (hgood1 h2)
    refine ⟨c2, ?_, ?_, hnd2, hgood2⟩
    · rw [diffLoop, hc1]
      exact hc2
    · intro k
      rw [hcount2, hcount1 k]
      simp only [patternWeight, List.map_cons, List.sum_cons]
      omega

/-! ## Claim C6 -/

/-- C6: under well-formed glob patterns and distinct owner patterns, the diff
matcher is exactly the specification's description: per file only the deepest
matching patterns count, each gets weight 1 for the touched file plus 1 per
changed (`+`/`-`, non-header) line, weights accumulate across files, and the
result is the sorted deduplicated union of the owner lists of the pattern(s)
of maximum total weight — with an empty diff or no match giving `[]`, not an
error. -/
theorem c6_diff_matcher_matches_spec
    (globBuild : Str → Option (Str → Bool)) (config : AssignConfig)
    (diff : List FileDiff)
    (hv : ∀ p ∈ config.owners.map Prod.fst, (globBuild p).isSome)
    (hknd : (config.owners.map Prod.fst).Nodup) :
    find_reviewers_from_diff globBuild config diff =
      .ok (diffCandidatesSpec globBuild config diff) := by
  obtain ⟨counts, hloop, hcount, hnd, hgood⟩ :=
    diffLoop_ok hv hknd diff [] (by simp [keysOf]) goodCounts_nil
  have hW : ∀ k, countOf counts k =
      patternWeight globBuild (config.owners.map Prod.fst) diff k := by
    intro k
    rw [hcount k]
    simp [countOf, List.lookup]
  have hmemW : ∀ k, k ∈ keysOf counts ↔
      0 < patternWeight globBuild (config.owners.map Prod.fst) diff k := by
    intro k
    rw [hgood k, hW k]
  have hWpos : ∀ k, 0 < patternWeight globBuild (config.owners.map Prod.fst) diff k →
      k ∈ config.owners.map Prod.fst := by
    intro k hpos
    simp only [patternWeight] at hpos
    obtain ⟨fd, _, hpos2⟩ := (natSum_pos_iff _ diff).mp hpos
    by_cases hk : k ∈ longestSpec globBuild (config.owners.map Prod.fst) fd.path
    · exact mem_longestSpec hk
    · rw [if_neg hk] at hpos2
      exact absurd hpos2 (lt_irrefl 0)
  have hentry : ∀ k v, (k, v) ∈ counts ↔ k ∈ keysOf counts ∧
      v = patternWeight globBuild (config.owners.map Prod.fst) diff k := by
    intro k v
    constructor
    · intro h
      refine ⟨List.mem_map.mpr ⟨(k, v), h, rfl⟩, ?_⟩
      have hl := (mem_alist_iff_lookup hnd).mp h
      rw [← hW k]
      simp [countOf, hl]
    · rintro ⟨hk, rfl⟩
      obtain ⟨⟨k', v₀⟩, hp, hfst⟩ := List.mem_map.mp hk
      have hkk : k' = k := hfst
      subst hkk
      have hl := (mem_alist_iff_lookup hnd).mp hp
      have hv0 : v₀ = patternWeight globBuild (config.owners.map Prod.fst) diff k' := by
        rw [← hW k']
        simp [countOf, hl]
      rw [← hv0]
      exact hp
  have hvals : counts.map Prod.snd = (keysOf counts).map
      (patternWeight globBuild (config.owners.map Prod.fst) diff) := by
    rw [keysOf, List.map_map]
    apply List.map_congr_left
    intro e he
    have h2 := (hentry e.1 e.2).mp he
    simpa using h2.2
  have hmax : ((counts.map Prod.snd).max?).getD 0 =
      (((config.owners.map Prod.fst).map
        (patternWeight globBuild (config.owners.map Prod.fst) diff)).max?).getD 0 := by
    rw [natMax_eq_foldr, natMax_eq_foldr]
    apply Nat.le_antisymm
    · apply foldr_max_le
      intro a ha
      rw [hvals] at ha
      obtain ⟨k, hk, rfl⟩ := List.mem_map.mp ha
      have hkeys := hWpos k ((hmemW k).mp hk)
      exact le_foldr_max_of_mem (List.mem_map.mpr ⟨k, hkeys, rfl⟩)
    · apply foldr_max_le
      intro a ha
      obtain ⟨k, hk, rfl⟩ := List.mem_map.mp ha
      rcases Nat.eq_zero_or_pos
          (patternWeight globBuild (config.owners.map Prod.fst) diff k) with h0 | hpos
      · rw [h0]
        exact Nat.zero_le _
      · refine le_foldr_max_of_mem ?_
        rw [hvals]
        exact List.mem_map.mpr ⟨k, (hmemW k).mpr hpos, rfl⟩
  have hwnd1 : ((counts.filter
      (fun e => e.2 = ((counts.map Prod.snd).max?).getD 0)).map Prod.fst).Nodup := by
    have hs : List.Sublist
        ((counts.filter
          (fun e => e.2 = ((counts.map Prod.snd).max?).getD 0)).map Prod.fst)
        (counts.map Prod.fst) := (List.filter_sublist counts).map Prod.fst
    exact List.Nodup.sublist hs hnd
  have hperm : List.Perm
      ((counts.filter (fun e => e.2 = ((counts.map Prod.snd).max?).getD 0)).map Prod.fst)
      ((config.owners.map Prod.fst).filter (fun p =>
        0 < patternWeight globBuild (config.owners.map Prod.fst) diff p ∧
        patternWeight globBuild (config.owners.map Prod.fst) diff p =
          (((config.owners.map Prod.fst).map
            (patternWeight globBuild (config.owners.map Prod.fst) diff)).max?).getD 0)) := by
    apply (List.perm_ext_iff_of_nodup hwnd1 (hknd.filter _)).mpr
    intro k
    constructor
    · intro hk
      obtain ⟨⟨k', v⟩, hkv, hfst⟩ := List.mem_map.mp hk
      have hkk : k' = k := hfst
      subst hkk
      obtain ⟨hmem, hvmax⟩ := List.mem_filter.mp hkv
      simp only [decide_eq_true_eq] at hvmax
      have hE := (hentry k' v).mp hmem
      have hkpos := (hmemW k').mp hE.1
      rw [List.mem_filter]
      refine ⟨hWpos k' hkpos, ?_⟩
      simp only [decide_eq_true_eq]
      exact ⟨hkpos, by rw [← hE.2, ← hmax]; exact hvmax⟩
    · intro hk
      obtain ⟨hkeys, hcond⟩ := List.mem_filter.mp hk
      simp only [decide_eq_true_eq] at hcond
      obtain ⟨hpos, hmaxk⟩ := hcond
      have hmem := (hmemW k).mpr hpos
      have hkv : (k, patternWeight globBuild (config.owners.map Prod.fst) diff k) ∈
          counts := (hentry k _).mpr ⟨hmem, rfl⟩
      apply List.mem_map.mpr
      refine ⟨(k, patternWeight globBuild (config.owners.map Prod.fst) diff k),
        List.mem_filter.mpr ⟨hkv, ?_⟩, rfl⟩
      simp only [decide_eq_true_eq]
      rw [hmax]
      exact hmaxk
  have hpermPot := hperm.flatMap_right (fun p => ownersOf config p)
  simp only [find_reviewers_from_diff, hloop, diffCandidatesSpec]
  rw [sortStr_eq_of_perm hpermPot]

/-- Witness for C6: a two-file diff where the deeper pattern wins through
changed-line weighting; the theorem instantiated at a concrete configuration. -/
theorem c6_diff_matcher_matches_spec_witness :
    find_reviewers_from_diff
      (fun p => some (fun path => p.isPrefixOf path))
      ⟨[(str "src", [str "bob", str "alice"]), (str "src/lib", [str "carol"])], [], []⟩
      [⟨str "src/lib/x", str "+a\n-b\n"⟩, ⟨str "src/y", str "+c\n"⟩] =
      .ok (diffCandidatesSpec
        (fun p => some (fun path => p.isPrefixOf path))
        ⟨[(str "src", [str "bob", str "alice"]), (str "src/lib", [str "carol"])], [], []⟩
        [⟨str "src/lib/x", str "+a\n-b\n"⟩, ⟨str "src/y", str "+c\n"⟩]) :=
  c6_diff_matcher_matches_spec _ _ _ (by decide) (by decide)
